import Mathlib

/-!
Verification of the CSV cleaning tool's deterministic core: the CSV codec
(`parseCSV` / `exportCSV` from `utils/csvHelper.ts`) and the schema validator
(`validateDataset` from `utils/validation.ts`).

The embedding models JavaScript strings as Lean `String` (lists of characters)
and JavaScript numbers as exact rationals extended with the two infinities,
with `Option` capturing NaN.  Idealizations, each noted at the definition it
concerns: IEEE-754 binary64 rounding is replaced by exact rational arithmetic,
`trim`/`toLowerCase` cover the ASCII repertoire the data pipeline uses, and
JavaScript's reordering of integer-like object keys is not modelled (rows keep
insertion order of their keys).
-/

namespace CsvTool

/-- The whitespace test used by the embedding of JavaScript's `trim`
(restricted to the ASCII whitespace characters that can reach the codec). -/
def isWs (c : Char) : Bool :=
  c = ' ' || c = '\t' || c = '\n' || c = '\r'

/-- Remove trailing whitespace from a character list (helper for the
embedding of `String.prototype.trim`). -/
def trimRight : List Char → List Char
  | [] => []
  | c :: r =>
    match trimRight r with
    | [] => if isWs c then [] else [c]
    | h :: t => c :: h :: t

/-- Remove leading and trailing whitespace from a character list; the
embedding of `String.prototype.trim`. -/
def trimList (cs : List Char) : List Char :=
  trimRight (cs.dropWhile isWs)

/-- `String`-level wrapper of `trimList`: models `s.trim()`. -/
def jsTrim (s : String) : String :=
  ⟨trimList s.toList⟩

/-- Models `s.toLowerCase()` (ASCII letters; the pipeline only compares
against the ASCII literals "null", "nan", "true", "false"). -/
def jsToLower (s : String) : String :=
  ⟨s.toList.map Char.toLower⟩

/-- Split a character list at every `'\n'`, embedding the line-splitting part
of `content.split(/\r?\n/)`; a possible `'\r'` before the `'\n'` is removed
afterwards by `dropCR`. -/
def splitOnNL : List Char → List (List Char)
  | [] => [[]]
  | c :: r =>
    if c = '\n' then [] :: splitOnNL r
    else
      match splitOnNL r with
      | [] => [[c]]
      | h :: t => (c :: h) :: t

/-- Remove a single trailing `'\r'`, the second half of splitting on the
regular expression `/\r?\n/`. -/
def dropCR (cs : List Char) : List Char :=
  if cs.getLast? = some '\r' then cs.dropLast else cs

theorem splitOnNL_ne_nil (cs : List Char) : splitOnNL cs ≠ [] := by
  cases cs with
  | nil => simp [splitOnNL]
  | cons c r =>
    simp only [splitOnNL]
    split
    · simp
    · split <;> simp

/-- Every line produced by `splitOnNL` is free of `'\n'`. -/
theorem splitOnNL_no_newline (cs : List Char) :
    ∀ l ∈ splitOnNL cs, '\n' ∉ l := by
  induction cs with
  | nil => intro l hl; simp [splitOnNL] at hl; simp [hl]
  | cons c r ih =>
    intro l hl
    simp only [splitOnNL] at hl
    split at hl
    · rcases List.mem_cons.mp hl with h | h
      · simp [h]
      · exact ih l h
    · rename_i hc
      rcases hrec : splitOnNL r with _ | ⟨h0, t⟩
      · exact absurd hrec (splitOnNL_ne_nil r)
      · rw [hrec] at hl
        rcases List.mem_cons.mp hl with h | h
        · subst h
          intro hmem
          rcases List.mem_cons.mp hmem with h | h
          · exact hc h.symm
          · exact ih h0 (hrec ▸ List.mem_cons_self h0 t) h
        · exact ih l (hrec ▸ List.mem_cons_of_mem h0 h)

theorem trimRight_nil : trimRight [] = [] := rfl

theorem trimRight_cons_eq_nil {r : List Char} (h : trimRight r = []) (c : Char) :
    trimRight (c :: r) = if isWs c then [] else [c] := by
  simp only [trimRight, h]

theorem trimRight_cons_eq_cons {r : List Char} {h0 : Char} {t : List Char}
    (h : trimRight r = h0 :: t) (c : Char) :
    trimRight (c :: r) = c :: h0 :: t := by
  simp only [trimRight, h]

theorem mem_trimRight {c : Char} : ∀ {l : List Char}, c ∈ trimRight l → c ∈ l := by
  intro l
  induction l with
  | nil => simp [trimRight_nil]
  | cons x r ih =>
    intro h
    rcases hrec : trimRight r with _ | ⟨h0, t⟩
    · rw [trimRight_cons_eq_nil hrec] at h
      split at h
      · simp at h
      · simp at h; simp [h]
    · rw [trimRight_cons_eq_cons hrec] at h
      rcases List.mem_cons.mp h with h1 | h1
      · simp [h1]
      · refine List.mem_cons_of_mem x (ih ?_)
        rw [hrec]; exact h1

theorem trimRight_eq_nil_iff : ∀ {l : List Char}, trimRight l = [] ↔ ∀ c ∈ l, isWs c := by
  intro l
  induction l with
  | nil => simp [trimRight_nil]
  | cons x r ih =>
    rcases hrec : trimRight r with _ | ⟨h0, t⟩
    · rw [trimRight_cons_eq_nil hrec]
      constructor
      · intro h
        by_cases hx : isWs x
        · intro c hc
          rcases List.mem_cons.mp hc with h1 | h1
          · exact h1 ▸ hx
          · exact (ih.mp hrec) c h1
        · simp [hx] at h
      · intro h
        simp [h x (List.mem_cons_self x r)]
    · rw [trimRight_cons_eq_cons hrec]
      constructor
      · intro h; simp at h
      · intro h
        exfalso
        have hall : ∀ c ∈ r, isWs c := fun c hc => h c (List.mem_cons_of_mem x hc)
        rw [ih.mpr hall] at hrec
        simp at hrec

theorem trimRight_head_cons {x : Char} {r : List Char} (hx : isWs x = false) :
    ∃ t, trimRight (x :: r) = x :: t := by
  rcases hrec : trimRight r with _ | ⟨h0, t⟩
  · exact ⟨[], by rw [trimRight_cons_eq_nil hrec]; simp [hx]⟩
  · exact ⟨h0 :: t, trimRight_cons_eq_cons hrec x⟩

theorem trimRight_getLast?_not_ws : ∀ {l : List Char} {c : Char},
    (trimRight l).getLast? = some c → isWs c = false := by
  intro l
  induction l with
  | nil => intro c h; simp [trimRight_nil] at h
  | cons x r ih =>
    intro c h
    rcases hrec : trimRight r with _ | ⟨h0, t⟩
    · rw [trimRight_cons_eq_nil hrec] at h
      by_cases hx : isWs x
      · simp [hx] at h
      · simp [hx] at h
        simp [← h, hx]
    · rw [trimRight_cons_eq_cons hrec, List.getLast?_cons_cons] at h
      apply ih
      rw [hrec]
      exact h

theorem trimRight_idem : ∀ (l : List Char), trimRight (trimRight l) = trimRight l := by
  intro l
  induction l with
  | nil => simp [trimRight_nil]
  | cons x r ih =>
    rcases hrec : trimRight r with _ | ⟨h0, t⟩
    · rw [trimRight_cons_eq_nil hrec]
      by_cases hx : isWs x
      · simp [hx, trimRight_nil]
      · rw [if_neg (by simp [hx])]
        rw [trimRight_cons_eq_nil trimRight_nil]
        simp [hx]
    · rw [trimRight_cons_eq_cons hrec]
      rw [hrec] at ih
      exact trimRight_cons_eq_cons ih x

theorem trimRight_eq_self {l : List Char}
    (h : ∀ c, l.getLast? = some c → isWs c = false) : trimRight l = l := by
  induction l with
  | nil => simp [trimRight_nil]
  | cons x r ih =>
    rcases hrec : trimRight r with _ | ⟨h0, t⟩
    · cases r with
      | nil =>
        have hx := h x (by simp)
        rw [trimRight_cons_eq_nil trimRight_nil]
        simp [hx]
      | cons y s =>
        exfalso
        have hall := trimRight_eq_nil_iff.mp hrec
        have hgl : (y :: s).getLast? = some ((y :: s).getLast (by simp)) :=
          List.getLast?_eq_getLast _ _
        have hcn := h ((y :: s).getLast (by simp))
          (by rw [List.getLast?_cons_cons]; exact hgl)
        have hcw := hall _ (List.getLast_mem (l := y :: s) (by simp))
        simp [hcn] at hcw
    · cases r with
      | nil => rw [trimRight_nil] at hrec; simp at hrec
      | cons y s =>
        have hr : trimRight (y :: s) = y :: s :=
          ih (fun c hc => h c (by rw [List.getLast?_cons_cons]; exact hc))
        exact trimRight_cons_eq_cons hr x

theorem dropWhile_head_not {p : Char → Bool} :
    ∀ (l : List Char) {x : Char} {xs : List Char}, l.dropWhile p = x :: xs → p x = false := by
  intro l
  induction l with
  | nil => intro x xs h; simp at h
  | cons c r ih =>
    intro x xs h
    rw [List.dropWhile_cons] at h
    split at h
    · exact ih h
    · rename_i hc
      cases h
      simpa using hc

theorem dropWhile_eq_self_of {p : Char → Bool} (l : List Char)
    (h : ∀ c ∈ l, p c = false) : l.dropWhile p = l := by
  cases l with
  | nil => simp
  | cons x r => rw [List.dropWhile_cons_of_neg (by simp [h x (List.mem_cons_self x r)])]

theorem mem_dropWhile_of_not {p : Char → Bool} {c : Char} :
    ∀ {l : List Char}, c ∈ l → p c = false → c ∈ l.dropWhile p := by
  intro l
  induction l with
  | nil => simp
  | cons x r ih =>
    intro hc hp
    by_cases hx : p x
    · rw [List.dropWhile_cons_of_pos hx]
      rcases List.mem_cons.mp hc with h1 | h1
      · subst h1; rw [hx] at hp; cases hp
      · exact ih h1 hp
    · rw [List.dropWhile_cons_of_neg hx]; exact hc

theorem mem_trimList {c : Char} {l : List Char} (h : c ∈ trimList l) : c ∈ l :=
  (l.dropWhile_sublist isWs).mem (mem_trimRight h)

/-- Trimming is idempotent. -/
theorem trimList_idem (cs : List Char) : trimList (trimList cs) = trimList cs := by
  unfold trimList
  rcases hd : (cs.dropWhile isWs) with _ | ⟨x, r⟩
  · simp [trimRight_nil]
  · have hx := dropWhile_head_not _ hd
    obtain ⟨t, ht⟩ := trimRight_head_cons (r := r) hx
    rw [ht, List.dropWhile_cons_of_neg (by simp [hx]), ← ht, trimRight_idem]

/-- A list whose characters are all non-whitespace is untouched by trimming. -/
theorem trimList_eq_self (cs : List Char) (h : ∀ c ∈ cs, isWs c = false) :
    trimList cs = cs := by
  unfold trimList
  rw [dropWhile_eq_self_of cs h]
  refine trimRight_eq_self (fun c hc => ?_)
  rcases List.mem_getLast?_eq_getLast hc with ⟨hne, hcl⟩
  exact h c (hcl ▸ List.getLast_mem hne)

/-- A list containing at least one non-whitespace character does not trim to
the empty list (is not "blank"). -/
theorem trimList_ne_nil {cs : List Char} {c : Char} (hc : c ∈ cs)
    (hw : isWs c = false) : trimList cs ≠ [] := by
  unfold trimList
  intro h
  exact absurd (trimRight_eq_nil_iff.mp h c (mem_dropWhile_of_not hc hw)) (by simp [hw])

/-- The last character of a trimmed nonempty list is not whitespace. -/
theorem trimList_getLast? {cs : List Char} {c : Char} (hfix : trimList cs = cs)
    (h : cs.getLast? = some c) : isWs c = false := by
  apply trimRight_getLast?_not_ws (l := cs.dropWhile isWs)
  unfold trimList at hfix
  rw [hfix]
  exact h

/-- The first character of a trimmed nonempty list is not whitespace. -/
theorem trimList_head? {cs : List Char} {c : Char} (hfix : trimList cs = cs)
    (h : cs.head? = some c) : isWs c = false := by
  unfold trimList at hfix
  rcases hd : (cs.dropWhile isWs) with _ | ⟨y, s⟩
  · rw [hd, trimRight_nil] at hfix
    rw [← hfix] at h
    simp at h
  · have hy := dropWhile_head_not _ hd
    obtain ⟨t, ht⟩ := trimRight_head_cons (r := s) hy
    rw [hd, ht] at hfix
    rw [← hfix] at h
    simp at h
    rw [← h]
    exact hy

/-! ### JavaScript numbers

`Number(string)` and number-to-string conversion, modelled over exact
rationals.  `Option JSNum` captures NaN as `none`.  Idealization: IEEE-754
binary64 rounding/overflow is replaced by exact rational arithmetic; this
leaves unchanged which strings are numeric-parseable and keeps the
print-then-parse identity that binary64 also enjoys. -/

/-- A non-NaN JavaScript number: a finite value or one of the infinities. -/
inductive JSNum where
  | finite (q : ℚ)
  | posInf
  | negInf
deriving DecidableEq

/-- Decimal digit test (the grammar of `Number` is ASCII). -/
def isDigitCh (c : Char) : Bool :=
  '0' ≤ c && c ≤ '9'

/-- Numeric value of a decimal digit character. -/
def digitVal (c : Char) : ℕ :=
  c.toNat - '0'.toNat

/-- Big-endian value of a digit list. -/
def digitsToNat (ds : List Char) : ℕ :=
  ds.foldl (fun a c => 10 * a + digitVal c) 0

def isHexDigitCh (c : Char) : Bool :=
  isDigitCh c || ('a' ≤ c && c ≤ 'f') || ('A' ≤ c && c ≤ 'F')

def isOctDigitCh (c : Char) : Bool :=
  '0' ≤ c && c ≤ '7'

def isBinDigitCh (c : Char) : Bool :=
  c = '0' || c = '1'

def hexVal (c : Char) : ℕ :=
  if isDigitCh c then digitVal c
  else if 'a' ≤ c && c ≤ 'f' then c.toNat - 'a'.toNat + 10
  else c.toNat - 'A'.toNat + 10

/-- Big-endian value of a digit list in a given radix. -/
def radixToNat (radix : ℕ) (val : Char → ℕ) (ds : List Char) : ℕ :=
  ds.foldl (fun a c => radix * a + val c) 0

/-- Value of an unsigned decimal literal `I . F` as an exact rational,
namely `I + F/10^|F|` (constructed with `mkRat` so that it evaluates). -/
def fracVal (intPart : ℕ) (fracDigits : List Char) : ℚ :=
  mkRat (intPart * 10 ^ fracDigits.length + digitsToNat fracDigits)
    (10 ^ fracDigits.length)

/-- Negate a rational when the sign is `-1` (constructed with `mkRat` so
that it evaluates). -/
def applySign (sgn : ℤ) (v : ℚ) : ℚ :=
  mkRat (sgn * v.num) v.den

/-- Multiply a rational by `10^e` for a signed exponent `e` (constructed
with `mkRat` so that it evaluates). -/
def applyExp (v : ℚ) (e : ℤ) : ℚ :=
  if 0 ≤ e then mkRat (v.num * 10 ^ e.toNat) v.den
  else mkRat v.num (v.den * 10 ^ (-e).toNat)

/-- Parse the digits of an exponent (everything after `e`/`E` and its sign);
the whole remainder must be nonempty digits. -/
def parseExpDigits (sgn : ℤ) (cs : List Char) : Option ℤ :=
  let ds := cs.takeWhile isDigitCh
  let rest := cs.dropWhile isDigitCh
  if ds ≠ [] ∧ rest = [] then some (sgn * (digitsToNat ds : ℤ)) else none

/-- Parse an optionally signed exponent. -/
def parseExp (cs : List Char) : Option ℤ :=
  if cs.head? = some '+' then parseExpDigits 1 cs.tail
  else if cs.head? = some '-' then parseExpDigits (-1) cs.tail
  else parseExpDigits 1 cs

/-- Parse an unsigned decimal significand `Digits [. Digits]` or `. Digits`,
returning its value and the unconsumed remainder. -/
def parseUnsigned (cs : List Char) : Option (ℚ × List Char) :=
  let intDs := cs.takeWhile isDigitCh
  let r1 := cs.dropWhile isDigitCh
  if intDs = [] then
    match r1 with
    | '.' :: r2 =>
      let fracDs := r2.takeWhile isDigitCh
      let r3 := r2.dropWhile isDigitCh
      if fracDs = [] then none else some (fracVal 0 fracDs, r3)
    | _ => none
  else
    match r1 with
    | '.' :: r2 =>
      let fracDs := r2.takeWhile isDigitCh
      let r3 := r2.dropWhile isDigitCh
      some (fracVal (digitsToNat intDs) fracDs, r3)
    | _ => some (mkRat (digitsToNat intDs) 1, r1)

/-- After the significand: end of input, or an exponent part consuming the
whole remainder. -/
def parseDecTail (sgn : ℤ) (v : ℚ) (rest : List Char) : Option ℚ :=
  match rest with
  | [] => some (applySign sgn v)
  | c :: r =>
    if c = 'e' ∨ c = 'E' then (parseExp r).map (fun e => applySign sgn (applyExp v e))
    else none

def parseDecSigned (sgn : ℤ) (cs : List Char) : Option ℚ :=
  match parseUnsigned cs with
  | none => none
  | some (v, rest) => parseDecTail sgn v rest

/-- A strict signed decimal literal with optional exponent (the
`StrDecimalLiteral` production of `Number`, minus the `Infinity` cases). -/
def parseDecCore (cs : List Char) : Option ℚ :=
  if cs.head? = some '+' then parseDecSigned 1 cs.tail
  else if cs.head? = some '-' then parseDecSigned (-1) cs.tail
  else parseDecSigned 1 cs

/-- Embedding of JavaScript's `Number(string)` conversion (`Number(val)` on
line 97 of `csvHelper.ts`): trim, empty ↦ 0, signed `Infinity`, `0x`/`0o`/`0b`
radix literals, else a strict decimal literal; `none` models NaN. -/
def jsNumber (s : String) : Option JSNum :=
  let t := trimList s.toList
  if t = [] then some (.finite 0)
  else if t = "Infinity".toList || t = "+Infinity".toList then some .posInf
  else if t = "-Infinity".toList then some .negInf
  else if t.head? = some '0' ∧ (t.tail.head? = some 'x' ∨ t.tail.head? = some 'X') then
    (if t.tail.tail ≠ [] ∧ t.tail.tail.all isHexDigitCh then
      some (.finite (mkRat (radixToNat 16 hexVal t.tail.tail) 1))
    else none)
  else if t.head? = some '0' ∧ (t.tail.head? = some 'o' ∨ t.tail.head? = some 'O') then
    (if t.tail.tail ≠ [] ∧ t.tail.tail.all isOctDigitCh then
      some (.finite (mkRat (radixToNat 8 digitVal t.tail.tail) 1))
    else none)
  else if t.head? = some '0' ∧ (t.tail.head? = some 'b' ∨ t.tail.head? = some 'B') then
    (if t.tail.tail ≠ [] ∧ t.tail.tail.all isBinDigitCh then
      some (.finite (mkRat (radixToNat 2 digitVal t.tail.tail) 1))
    else none)
  else (parseDecCore t).map .finite

/-- Character of a decimal digit. -/
def digitChar (d : ℕ) : Char :=
  Char.ofNat ('0'.toNat + d)

/-- Little-endian decimal digits of a natural number, with explicit fuel so
that the definition evaluates by kernel reduction. -/
def natDigitsLEAux : ℕ → ℕ → List Char
  | 0, _ => []
  | fuel + 1, n =>
    if n < 10 then [digitChar n]
    else digitChar (n % 10) :: natDigitsLEAux fuel (n / 10)

/-- Big-endian decimal digits of a natural number (no leading zeros). -/
def natDigits (n : ℕ) : List Char :=
  (natDigitsLEAux (n + 1) n).reverse

/-- Multiplicity of `p` in `n` (for `2 ≤ p`, `1 ≤ n`; otherwise 0), with
explicit fuel so that the definition evaluates by kernel reduction. -/
def padValAux (p : ℕ) : ℕ → ℕ → ℕ
  | 0, _ => 0
  | fuel + 1, n =>
    if 2 ≤ p ∧ 1 ≤ n ∧ n % p = 0 then 1 + padValAux p fuel (n / p) else 0

def padVal (p n : ℕ) : ℕ :=
  padValAux p n n

/-- The digit string of `m` with a decimal point inserted `k` places from
the right (padding with leading zeros as needed). -/
def renderCore (k m : ℕ) : List Char :=
  let digits := natDigits m
  let padded := List.replicate (k + 1 - digits.length) '0' ++ digits
  if k = 0 then digits
  else padded.take (padded.length - k) ++ '.' :: padded.drop (padded.length - k)

/-- Exact decimal rendering of a nonnegative rational whose denominator
divides a power of ten: the digit string of `q·10^k` with a decimal point
inserted `k` places from the right. -/
def renderNonneg (q : ℚ) : List Char :=
  renderCore (max (padVal 2 q.den) (padVal 5 q.den))
    (q.num.natAbs * 10 ^ max (padVal 2 q.den) (padVal 5 q.den) / q.den)

/-- Embedding of JavaScript number-to-string conversion for finite values.
Idealization: the exact decimal expansion is printed (binary64 shortest
round-trip printing and its exponent forms are not modelled); like the
original, it satisfies `Number(String(x)) = x`, which is the only property
the codec relies on. -/
def renderQ (q : ℚ) : List Char :=
  if q < 0 then '-' :: renderNonneg (-q) else renderNonneg q

/-- `('' + n)` for a non-NaN number. -/
def renderJSNum : JSNum → String
  | .posInf => "Infinity"
  | .negInf => "-Infinity"
  | .finite q => ⟨renderQ q⟩

/-! ### Data model and type inference -/

/-- A parsed cell value: `string | number | boolean | null` (`CellValue` in
`types.ts`). -/
inductive CellValue where
  | null
  | num (n : JSNum)
  | bool (b : Bool)
  | str (s : String)
deriving DecidableEq

/-- The boolean and string branches at the end of the inference chain
(lines 102-108 of `csvHelper.ts`). -/
def inferBoolStr (val : String) : CellValue :=
  if jsToLower val = "true" then .bool true
  else if jsToLower val = "false" then .bool false
  else .str val

/-- Per-field type inference (lines 96-108 of `csvHelper.ts`): empty or
`null`/`nan` (case-insensitive) ↦ null; else a non-NaN `Number(val)` with
non-blank `val.trim()` ↦ that number; else `true`/`false` ↦ boolean;
else the string itself. -/
def inferCell (val : String) : CellValue :=
  if val = "" ∨ jsToLower val = "null" ∨ jsToLower val = "nan" then .null
  else
    match jsNumber val with
    | some n => if jsTrim val ≠ "" then .num n else inferBoolStr val
    | none => inferBoolStr val

/-- A data row: the synthetic `id` property (created first, so first in key
order; a CSV column literally named `id` overwrites it), the data cells in
insertion order, and the optional `_flags` annotation object added by the
repair step. -/
structure DataRow where
  id : CellValue
  cells : List (String × CellValue)
  flags : Option (List (String × String))
deriving DecidableEq

/-- The result of a JavaScript property read `row[key]`. -/
inductive JSVal where
  | jsUndefined
  | cell (c : CellValue)
  | obj (m : List (String × String))
deriving DecidableEq

/-- `row[k]`: the `id` property, a data cell, the `_flags` object, or
`undefined`. -/
def rowGet (r : DataRow) (k : String) : JSVal :=
  if k = "id" then .cell r.id
  else
    match r.cells.lookup k with
    | some v => .cell v
    | none =>
      if k = "_flags" then
        match r.flags with
        | some m => .obj m
        | none => .jsUndefined
      else .jsUndefined

/-- `Object.keys(row)` in insertion order: `id` first (created first by
`parseCSV`), then the data cells, then `_flags` when present.  Idealization:
JavaScript's reordering of integer-like keys is not modelled. -/
def jsKeys (r : DataRow) : List String :=
  "id" :: (r.cells.map Prod.fst ++ match r.flags with | some _ => ["_flags"] | none => [])

/-- JavaScript object assignment on the cell list: update an existing key in
place, otherwise append. -/
def jsSet : List (String × CellValue) → String → CellValue → List (String × CellValue)
  | [], k, v => [(k, v)]
  | (k', v') :: rest, k, v =>
    if k' = k then (k, v) :: rest else (k', v') :: jsSet rest k v

/-- `row[header] = value` (line 99 etc.): assigning to `id` overwrites the
synthetic identifier property, anything else goes to the cell list. -/
def rowSet (r : DataRow) (k : String) (v : CellValue) : DataRow :=
  if k = "id" then { r with id := v }
  else { r with cells := jsSet r.cells k v }

/-! ### parseCSV -/

/-- `e.replace(/^"|"$/g, '')` (line 84): strip one leading and one trailing
double quote. -/
def stripQuotes (s : String) : String :=
  let l := s.toList
  let l1 := if l.head? = some '"' then l.tail else l
  ⟨if l1.getLast? = some '"' then l1.dropLast else l1⟩

/-- The quote-aware comma tokenizer (lines 68-85 of `csvHelper.ts`): a double
quote toggles `inQuotes` and is not kept, a comma outside quotes flushes the
trimmed buffer, any other character is appended; the buffer is flushed at end
of line. -/
def parseLineAux : List Char → Bool → List Char → List String
  | [], _, entry => [jsTrim ⟨entry⟩]
  | c :: r, inQ, entry =>
    if c = '"' then parseLineAux r (!inQ) entry
    else if c = ',' ∧ inQ = false then jsTrim ⟨entry⟩ :: parseLineAux r inQ []
    else parseLineAux r inQ (entry ++ [c])

def parseLine (line : List Char) : List String :=
  (parseLineAux line false []).map stripQuotes

/-- Parse result: `{ headers, data }`. -/
structure CSVResult where
  headers : List String
  data : List DataRow
deriving DecidableEq

/-- Build the row for one accepted data line (lines 93-109): synthetic id
`row-i`, then one assignment per header/value pair. -/
def buildRow (i : ℕ) (headers values : List String) : DataRow :=
  (headers.zip values).foldl (fun r hv => rowSet r hv.1 (inferCell hv.2))
    ⟨.str ("row-" ++ toString i), [], none⟩

/-- The data-line loop (lines 90-112): a line is accepted only when its
field count equals the header count, otherwise skipped; `i` is the index in
the blank-filtered line array. -/
def buildRows (headers : List String) : List (List Char) → ℕ → List DataRow
  | [], _ => []
  | l :: ls, i =>
    let values := parseLine l
    if values.length = headers.length then
      buildRow i headers values :: buildRows headers ls (i + 1)
    else buildRows headers ls (i + 1)

/-- Line 63: `content.split(/\r?\n/).filter(line => line.trim() !== '')`. -/
def csvLines (content : String) : List (List Char) :=
  ((splitOnNL content.toList).map dropCR).filter fun l => trimList l ≠ []

/-- `parseCSV` (lines 62-115 of `csvHelper.ts`): split on `/\r?\n/`, drop
blank lines, first line is the header, remaining lines are data. -/
def parseCSV (content : String) : CSVResult :=
  match csvLines content with
  | [] => ⟨[], []⟩
  | l0 :: rest => ⟨parseLine l0, buildRows (parseLine l0) rest 1⟩

/-! ### exportCSV -/

/-- `.replace(/"/g, '""')` (line 129): double every double quote. -/
def escQuotes (s : String) : List Char :=
  s.toList.flatMap fun c => if c = '"' then ['"', '"'] else [c]

/-- `('' + (val ?? ''))` (line 129): nullish values become the empty string,
other values their JavaScript string form. -/
def coalesceString : JSVal → String
  | .jsUndefined => ""
  | .cell .null => ""
  | .cell (.num n) => renderJSNum n
  | .cell (.bool b) => if b then "true" else "false"
  | .cell (.str s) => s
  | .obj _ => "[object Object]"

/-- `String(val)` (line 375 of the validator): like coalescing, but null and
undefined print their names. -/
def jsString : JSVal → String
  | .jsUndefined => "undefined"
  | .cell .null => "null"
  | .cell (.num n) => renderJSNum n
  | .cell (.bool b) => if b then "true" else "false"
  | .cell (.str s) => s
  | .obj _ => "[object Object]"

/-- Join with a separator (`Array.prototype.join`). -/
def joinSep (sep : List Char) : List (List Char) → List Char
  | [] => []
  | [x] => x
  | x :: y :: xs => x ++ sep ++ joinSep sep (y :: xs)

/-- One exported field (lines 127-131): coalesce, double quotes, wrap in
quotes unconditionally. -/
def exportField (r : DataRow) (h : String) : List Char :=
  '"' :: (escQuotes (coalesceString (rowGet r h)) ++ ['"'])

/-- One exported data line (line 132): fields joined by commas. -/
def exportRowLine (headers : List String) (r : DataRow) : List Char :=
  joinSep [','] (headers.map (exportField r))

/-- `exportCSV` (lines 117-136 of `csvHelper.ts`): empty input gives the
empty string; otherwise the unquoted header line (keys of the first row,
minus `id`) followed by one line per row, joined by newlines. -/
def exportCSV (data : List DataRow) : String :=
  match data with
  | [] => ""
  | r0 :: _ =>
    let headers := (jsKeys r0).filter (fun k => k ≠ "id")
    ⟨joinSep ['\n']
      (joinSep [','] (headers.map String.toList) :: data.map (exportRowLine headers))⟩

/-! ### validateDataset -/

/-- Column type tags (`ColumnStats.type` in `types.ts`). -/
inductive ColType where
  | string
  | number
  | boolean
  | date
  | mixed
deriving DecidableEq

/-- Column descriptors (`ColumnStats` in `types.ts`). -/
structure ColumnStats where
  name : String
  type : ColType
  missingCount : ℕ
  uniqueCount : ℕ
  issues : List String
  sampleValues : List String
deriving DecidableEq

/-- One violation record (`ValidationError` in `types.ts`). -/
structure ValidationError where
  column : String
  expectedType : ColType
  issueCount : ℕ
  examples : List String
deriving DecidableEq

/-- `ValidationResult` in `types.ts`. -/
structure ValidationResult where
  isValid : Bool
  score : ℤ
  errors : List ValidationError
  totalRowsChecked : ℕ
deriving DecidableEq

/-- `val !== null && val !== undefined && val !== ''` (line 362). -/
def isPresent (v : JSVal) : Bool :=
  !(v = .cell .null || v = .jsUndefined || v = .cell (.str ""))

/-- `typeof val === 'number'`. -/
def typeofNumber : JSVal → Bool
  | .cell (.num _) => true
  | _ => false

/-- `typeof val === 'boolean'`. -/
def typeofBoolean : JSVal → Bool
  | .cell (.bool _) => true
  | _ => false

/-- Per-cell validity (lines 357-369 of the validator): absent values are
valid; a present value must be a number for `number` columns and a boolean
for `boolean` columns; other declared types impose no check. -/
def cellValid (t : ColType) (v : JSVal) : Bool :=
  if isPresent v then
    if t = .number then typeofNumber v
    else if t = .boolean then typeofBoolean v
    else true
  else true

/-- Accumulator of the inner row loop: issue count and examples for the
current column, plus that column's contribution to the global valid/total
cell counters. -/
structure ColAcc where
  issues : ℕ
  examples : List String
  valid : ℕ
  total : ℕ
deriving DecidableEq

/-- One step of the row loop (lines 354-380): count the cell, then record it
as valid or as an issue with at most three stringified examples. -/
def validateColStep (t : ColType) (name : String) (acc : ColAcc) (row : DataRow) : ColAcc :=
  let val := rowGet row name
  if cellValid t val then
    { acc with valid := acc.valid + 1, total := acc.total + 1 }
  else
    { acc with
      issues := acc.issues + 1
      total := acc.total + 1
      examples :=
        if acc.examples.length < 3 then acc.examples ++ [jsString val] else acc.examples }

def validateCol (data : List DataRow) (t : ColType) (name : String) : ColAcc :=
  data.foldl (validateColStep t name) ⟨0, [], 0, 0⟩

/-- `Math.round` on an exact rational: `⌊q + 1/2⌋`, computed on integers.
Idealization: the original computes the ratio in binary64 before rounding;
exact rational rounding is used instead. -/
def jsRound (q : ℚ) : ℤ :=
  Int.fdiv (2 * q.num + q.den) (2 * q.den)

/-- The column loop of `validateDataset` (lines 347-390), accumulating the
violation list and the global valid/total cell counters. -/
def validateStep (data : List DataRow) (acc : List ValidationError × ℕ × ℕ)
    (col : ColumnStats) : List ValidationError × ℕ × ℕ :=
  if col.type = .mixed ∨ col.name = "id" then acc
  else
    let c := validateCol data col.type col.name
    (if c.issues > 0 then acc.1 ++ [⟨col.name, col.type, c.issues, c.examples⟩] else acc.1,
     acc.2.1 + c.valid, acc.2.2 + c.total)

/-- `validateDataset` (lines 342-401 of the validator). -/
def validateDataset (data : List DataRow) (columns : List ColumnStats) : ValidationResult :=
  let res := columns.foldl (validateStep data) ([], 0, 0)
  let score : ℤ :=
    if res.2.2 = 0 then 100 else jsRound (mkRat ((res.2.1 : ℤ) * 100) res.2.2)
  ⟨res.1.isEmpty, score, res.1, data.length⟩

/-! ### Spec-worded reference definitions

Definitions in this section follow the wording of the specification (§4.1 -
§4.3) rather than the control flow of the source; the claim theorems compare
the two. -/

/-- §4.1's classification rule as the spec words it: empty or `null`/`nan`
(case-insensitive) ↦ null; else numeric-parseable ↦ that number; else
`true`/`false` (case-insensitive) ↦ boolean; else the string itself. -/
def specClassify (v : String) : CellValue :=
  if v = "" ∨ jsToLower v = "null" ∨ jsToLower v = "nan" then .null
  else if (jsNumber v).isSome then .num ((jsNumber v).getD (.finite 0))
  else if jsToLower v = "true" then .bool true
  else if jsToLower v = "false" then .bool false
  else .str v

/-- Does the inference chain classify this cell as a number? -/
def isNumCell : CellValue → Bool
  | .num _ => true
  | _ => false

/-- "The whole trimmed string converts to a *finite* number": `Number(v)`
yields a finite value (not NaN, not ±Infinity). -/
def isFiniteNumString (v : String) : Bool :=
  match jsNumber v with
  | some (.finite _) => true
  | _ => false

theorem isNumCell_inferBoolStr (v : String) : isNumCell (inferBoolStr v) = false := by
  unfold inferBoolStr
  split
  · rfl
  · split <;> rfl

theorem inferCell_eq_specClassify (v : String) (hv : jsTrim v = v) :
    inferCell v = specClassify v := by
  unfold inferCell specClassify
  by_cases h1 : v = "" ∨ jsToLower v = "null" ∨ jsToLower v = "nan"
  · simp [h1]
  · rcases hn : jsNumber v with _ | n
    · simp [h1, hn, inferBoolStr]
    · have hne : jsTrim v ≠ "" := by
        rw [hv]
        exact fun h => h1 (Or.inl h)
      simp [h1, hn, hne]

/-- **C2**: `parseCSV` classifies every trimmed, quote-unwrapped field value
by the ordered rule of §4.1 (null test, then numeric, then boolean, then
string fallback), and in particular `""` ↦ null, `"NaN"` ↦ null, `"42"` ↦
number 42, `"true"`/`"TRUE"` ↦ boolean true, `"abc"` ↦ string `"abc"`,
`"3.14"` ↦ number 3.14. -/
theorem claim_type_inference_rule :
    (∀ v : String, jsTrim v = v → inferCell v = specClassify v) ∧
    inferCell "" = .null ∧ inferCell "NaN" = .null ∧
    inferCell "42" = .num (.finite (mkRat 42 1)) ∧
    inferCell "true" = .bool true ∧ inferCell "TRUE" = .bool true ∧
    inferCell "abc" = .str "abc" ∧
    inferCell "3.14" = .num (.finite (mkRat 314 100)) :=
  ⟨inferCell_eq_specClassify, by decide, by decide, by decide, by decide,
    by decide, by decide, by decide⟩

/-- Witness for **C2** at the concrete trimmed value `"x7"`. -/
theorem claim_type_inference_rule_witness :
    inferCell "x7" = specClassify "x7" :=
  claim_type_inference_rule.1 "x7" (by decide)

/-- **C7** (counterexample): `"Infinity"` is classified as a number by the
numeric branch although `Number("Infinity")` is not finite, so "number iff
the whole trimmed string converts to a finite number" fails at `"Infinity"`. -/
theorem claim_numeric_finite_counterexample :
    isNumCell (inferCell "Infinity") = true ∧
    isFiniteNumString "Infinity" = false ∧
    jsNumber "Infinity" = some .posInf ∧
    inferCell "Infinity" = .num .posInf := by decide

/-- **C7** (amended): a field value is classified as a number exactly when it
escapes the null branch, `Number(v)` is not NaN (±Infinity and radix literals
included), and `v.trim()` is non-blank; `""` is never treated as numeric
zero (it becomes null). -/
theorem claim_numeric_branch_amended :
    (∀ v : String,
      isNumCell (inferCell v) = true ↔
        (¬(v = "" ∨ jsToLower v = "null" ∨ jsToLower v = "nan") ∧
         (jsNumber v).isSome = true ∧ jsTrim v ≠ "")) ∧
    inferCell "" = .null := by
  constructor
  · intro v
    unfold inferCell
    by_cases h1 : v = "" ∨ jsToLower v = "null" ∨ jsToLower v = "nan"
    · simp [h1, isNumCell]
    · rcases hn : jsNumber v with _ | n
      · simp [h1, hn, isNumCell_inferBoolStr]
      · by_cases ht : jsTrim v = ""
        · simp [h1, hn, ht, isNumCell_inferBoolStr]
        · simp [h1, hn, ht, isNumCell]
  · decide

/-- Witness for **C7**'s amended rule at the concrete value `"5"`. -/
theorem claim_numeric_branch_amended_witness :
    isNumCell (inferCell "5") = true :=
  (claim_numeric_branch_amended.1 "5").mpr ⟨by decide, by decide, by decide⟩

/-! ### Validator: spec-worded form and characterization -/

/-- The values of one column over all rows. -/
def colVals (data : List DataRow) (name : String) : List JSVal :=
  data.map fun row => rowGet row name

/-- The nonconforming cells of a column (§4.3). -/
def invalidVals (data : List DataRow) (t : ColType) (name : String) : List JSVal :=
  (colVals data name).filter fun v => !cellValid t v

/-- The conforming cells of a column (§4.3). -/
def validVals (data : List DataRow) (t : ColType) (name : String) : List JSVal :=
  (colVals data name).filter fun v => cellValid t v

/-- §4.3 skip rule: `mixed` columns and the row-identifier column. -/
def specSkip (col : ColumnStats) : Bool :=
  col.type = .mixed || col.name = "id"

def specCheckedCols (columns : List ColumnStats) : List ColumnStats :=
  columns.filter fun col => !specSkip col

/-- §4.3, spec-worded: a column with at least one nonconforming cell yields
exactly one violation record carrying its name, expected type, issue count
and at most three stringified example values. -/
def specColViolation (data : List DataRow) (col : ColumnStats) : Option ValidationError :=
  let inv := invalidVals data col.type col.name
  if inv.length = 0 then none
  else some ⟨col.name, col.type, inv.length, (inv.take 3).map jsString⟩

def specErrors (data : List DataRow) (columns : List ColumnStats) : List ValidationError :=
  (specCheckedCols columns).filterMap (specColViolation data)

def specValidCells (data : List DataRow) (columns : List ColumnStats) : ℕ :=
  ((specCheckedCols columns).map fun col => (validVals data col.type col.name).length).sum

def specTotalCells (data : List DataRow) (columns : List ColumnStats) : ℕ :=
  (specCheckedCols columns).length * data.length

theorem validateCol_foldl (t : ColType) (name : String) :
    ∀ (ls : List DataRow) (acc : ColAcc), acc.examples.length = min acc.issues 3 →
      ls.foldl (validateColStep t name) acc =
        ⟨acc.issues + (invalidVals ls t name).length,
         acc.examples ++ ((invalidVals ls t name).take (3 - acc.examples.length)).map jsString,
         acc.valid + (validVals ls t name).length,
         acc.total + ls.length⟩ := by
  intro ls
  induction ls with
  | nil =>
    intro acc h
    simp [invalidVals, validVals, colVals]
  | cons r ls ih =>
    intro acc h
    rw [List.foldl_cons]
    by_cases hv : cellValid t (rowGet r name) = true
    · have hstep : validateColStep t name acc r =
          { acc with valid := acc.valid + 1, total := acc.total + 1 } := by
        unfold validateColStep
        simp [hv]
      have hinv : invalidVals (r :: ls) t name = invalidVals ls t name := by
        unfold invalidVals colVals
        simp [List.filter_cons, hv]
      have hval : validVals (r :: ls) t name = rowGet r name :: validVals ls t name := by
        unfold validVals colVals
        simp [List.filter_cons, hv]
      rw [hstep, ih _ (by simpa using h), hinv, hval]
      simp only [List.length_cons]
      congr 1 <;> omega
    · have hv' : cellValid t (rowGet r name) = false := by
        simpa using hv
      have hstep : validateColStep t name acc r =
          { acc with
            issues := acc.issues + 1
            total := acc.total + 1
            examples :=
              if acc.examples.length < 3 then acc.examples ++ [jsString (rowGet r name)]
              else acc.examples } := by
        unfold validateColStep
        simp [hv']
      have hinv : invalidVals (r :: ls) t name = rowGet r name :: invalidVals ls t name := by
        unfold invalidVals colVals
        simp [List.filter_cons, hv']
      have hval : validVals (r :: ls) t name = validVals ls t name := by
        unfold validVals colVals
        simp [List.filter_cons, hv']
      by_cases hlen : acc.examples.length < 3
      · have hstep2 : validateColStep t name acc r =
            { acc with
              issues := acc.issues + 1
              total := acc.total + 1
              examples := acc.examples ++ [jsString (rowGet r name)] } := by
          rw [hstep]
          simp [hlen]
        have hacc : (acc.examples ++ [jsString (rowGet r name)]).length =
            min (acc.issues + 1) 3 := by
          simp only [List.length_append, List.length_singleton]
          omega
        rw [hstep2, ih _ hacc, hinv, hval]
        have h3 : 3 - acc.examples.length = (3 - (acc.examples.length + 1)) + 1 := by
          omega
        rw [h3, List.take_succ_cons, List.map_cons]
        simp only [List.length_cons, List.length_append, List.length_singleton,
          List.append_assoc, List.singleton_append]
        congr 1 <;> omega
      · have hstep2 : validateColStep t name acc r =
            { acc with issues := acc.issues + 1, total := acc.total + 1 } := by
          rw [hstep]
          simp [hlen]
        have hlen3 : acc.examples.length = 3 := by omega
        have hacc : acc.examples.length = min (acc.issues + 1) 3 := by omega
        rw [hstep2,
          ih { acc with issues := acc.issues + 1, total := acc.total + 1 } hacc,
          hinv, hval, hlen3]
        simp only [Nat.sub_self, List.take_zero, List.map_nil, List.append_nil,
          List.length_cons]
        congr 1 <;> omega

theorem validateCol_eq (data : List DataRow) (t : ColType) (name : String) :
    validateCol data t name =
      ⟨(invalidVals data t name).length,
       ((invalidVals data t name).take 3).map jsString,
       (validVals data t name).length,
       data.length⟩ := by
  unfold validateCol
  rw [validateCol_foldl t name data ⟨0, [], 0, 0⟩ (by simp)]
  simp

theorem validateStep_foldl (data : List DataRow) :
    ∀ (cols : List ColumnStats) (errs : List ValidationError) (v t : ℕ),
      cols.foldl (validateStep data) (errs, v, t) =
        (errs ++ specErrors data cols,
         v + specValidCells data cols,
         t + specTotalCells data cols) := by
  intro cols
  induction cols with
  | nil =>
    intro errs v t
    simp [specErrors, specCheckedCols, specValidCells, specTotalCells]
  | cons col cols ih =>
    intro errs v t
    rw [List.foldl_cons]
    by_cases hs : specSkip col = true
    · have hcond : col.type = .mixed ∨ col.name = "id" := by
        unfold specSkip at hs
        simpa using hs
      have hstep : validateStep data (errs, v, t) col = (errs, v, t) := by
        unfold validateStep
        simp [hcond]
      have hchk : specCheckedCols (col :: cols) = specCheckedCols cols := by
        unfold specCheckedCols
        simp [List.filter_cons, hs]
      rw [hstep, ih]
      unfold specErrors specValidCells specTotalCells
      rw [hchk]
    · have hcond : ¬(col.type = .mixed ∨ col.name = "id") := by
        unfold specSkip at hs
        simpa using hs
      have hchk : specCheckedCols (col :: cols) = col :: specCheckedCols cols := by
        unfold specCheckedCols
        simp [List.filter_cons, hs]
      have hstep : validateStep data (errs, v, t) col =
          ((if (invalidVals data col.type col.name).length > 0 then
              errs ++ [⟨col.name, col.type, (invalidVals data col.type col.name).length,
                ((invalidVals data col.type col.name).take 3).map jsString⟩]
            else errs),
           v + (validVals data col.type col.name).length,
           t + data.length) := by
        unfold validateStep
        rw [validateCol_eq]
        simp [hcond]
      rw [hstep]
      by_cases hiss : (invalidVals data col.type col.name).length > 0
      · have hviol : specColViolation data col =
            some ⟨col.name, col.type, (invalidVals data col.type col.name).length,
              ((invalidVals data col.type col.name).take 3).map jsString⟩ := by
          unfold specColViolation
          simp only []
          rw [if_neg (by omega)]
        rw [if_pos hiss, ih]
        unfold specErrors specValidCells specTotalCells
        rw [hchk]
        rw [List.filterMap_cons, hviol]
        simp only [List.map_cons, List.sum_cons, List.length_cons]
        simp only [Prod.mk.injEq]
        refine ⟨?_, ?_, ?_⟩
        · rw [List.append_assoc, List.singleton_append]
        · omega
        · ring
      · have hviol : specColViolation data col = none := by
          unfold specColViolation
          simp only []
          rw [if_pos (by omega)]
        rw [if_neg hiss, ih]
        unfold specErrors specValidCells specTotalCells
        rw [hchk]
        rw [List.filterMap_cons, hviol]
        simp only [List.map_cons, List.sum_cons, List.length_cons]
        simp only [Prod.mk.injEq, true_and]
        refine ⟨?_, ?_⟩
        · omega
        · ring

/-- `validateDataset` in terms of the spec-worded quantities. -/
theorem validateDataset_eq (data : List DataRow) (columns : List ColumnStats) :
    validateDataset data columns =
      ⟨(specErrors data columns).isEmpty,
       if specTotalCells data columns = 0 then 100
       else jsRound (mkRat ((specValidCells data columns : ℤ) * 100)
         (specTotalCells data columns)),
       specErrors data columns,
       data.length⟩ := by
  unfold validateDataset
  rw [validateStep_foldl]
  simp

theorem jsRound_eq_floor (q : ℚ) : jsRound q = ⌊q + 1/2⌋ := by
  unfold jsRound
  have hdpos : (0 : ℚ) < (q.den : ℚ) := by exact_mod_cast q.den_pos
  have h : q + 1/2 = ((2 * q.num + q.den : ℤ) : ℚ) / ((2 * q.den : ℕ) : ℚ) := by
    conv_lhs => rw [← Rat.num_div_den q]
    push_cast
    rw [div_add_div _ _ (ne_of_gt hdpos) two_ne_zero,
      div_eq_div_iff (by positivity) (by positivity)]
    ring
  rw [h, Rat.floor_intCast_div_natCast]
  rw [← Int.fdiv_eq_ediv _ (by positivity)]
  norm_num

theorem specColViolation_nil (col : ColumnStats) : specColViolation [] col = none := by
  unfold specColViolation invalidVals colVals
  simp

/-- **C3**: skipped descriptors (`mixed` type or name `id`) never produce a
violation; a null/undefined/empty cell is always valid; a present value must
be a number for declared type `number` and a boolean for `boolean`, while
other declared types impose no check; and each column with at least one
nonconforming cell yields exactly one violation record with the column name,
expected type, issue count and at most three stringified examples — i.e. the
error list is exactly the spec-worded `specErrors`. -/
theorem claim_validator_policy :
    (∀ data columns, (validateDataset data columns).errors = specErrors data columns) ∧
    (∀ data columns, (∀ col ∈ columns, col.type = .mixed ∨ col.name = "id") →
        validateDataset data columns = ⟨true, 100, [], data.length⟩) ∧
    (∀ t, cellValid t .jsUndefined = true ∧ cellValid t (.cell .null) = true ∧
        cellValid t (.cell (.str "")) = true) ∧
    (∀ v, isPresent v = true →
        cellValid .number v = typeofNumber v ∧ cellValid .boolean v = typeofBoolean v) ∧
    (∀ t v, t ≠ .number → t ≠ .boolean → cellValid t v = true) ∧
    (∀ data col, specColViolation data col = none ↔
        invalidVals data col.type col.name = []) ∧
    (∀ data col e, specColViolation data col = some e →
        e.column = col.name ∧ e.expectedType = col.type ∧
        e.issueCount = (invalidVals data col.type col.name).length ∧
        e.examples = ((invalidVals data col.type col.name).take 3).map jsString ∧
        e.examples.length ≤ 3) := by
  refine ⟨?_, ?_, ?_, ?_, ?_, ?_, ?_⟩
  · intro data columns
    rw [validateDataset_eq]
  · intro data columns hall
    have hchk : specCheckedCols columns = [] := by
      unfold specCheckedCols
      rw [List.filter_eq_nil_iff]
      intro col hcol
      rcases hall col hcol with h1 | h1 <;> simp [specSkip, h1]
    rw [validateDataset_eq]
    unfold specErrors specValidCells specTotalCells
    rw [hchk]
    simp
  · intro t
    refine ⟨rfl, rfl, ?_⟩
    unfold cellValid isPresent
    simp
  · intro v hp
    unfold cellValid
    rw [hp]
    simp
  · intro t v hn hb
    unfold cellValid
    by_cases hp : isPresent v <;> simp [hp, hn, hb]
  · intro data col
    unfold specColViolation
    constructor
    · intro h
      by_cases hl : (invalidVals data col.type col.name).length = 0
      · exact List.length_eq_zero.mp hl
      · simp [hl] at h
    · intro h
      simp [h]
  · intro data col e h
    unfold specColViolation at h
    by_cases hl : (invalidVals data col.type col.name).length = 0
    · simp [hl] at h
    · simp only [hl, if_false] at h
      cases h
      refine ⟨rfl, rfl, rfl, rfl, ?_⟩
      rw [List.length_map]
      exact le_trans (List.length_take_le _ _) (by omega)

/-- Witness for **C3** at a concrete skipped column list and a concrete
present value. -/
theorem claim_validator_policy_witness :
    validateDataset [] [⟨"m", .mixed, 0, 0, [], []⟩] = ⟨true, 100, [], 0⟩ ∧
    cellValid .number (.cell (.str "x")) = typeofNumber (.cell (.str "x")) :=
  ⟨claim_validator_policy.2.1 [] [⟨"m", .mixed, 0, 0, [], []⟩] (by decide),
   (claim_validator_policy.2.2.2.1 (.cell (.str "x")) (by decide)).1⟩

/-- The §8 mismatch example: a `number` column `Age` over the values
`30, "N/A", 25, "", "old"`. -/
def ageRows : List DataRow :=
  [⟨.str "row-1", [("Age", .num (.finite (mkRat 30 1)))], none⟩,
   ⟨.str "row-2", [("Age", .str "N/A")], none⟩,
   ⟨.str "row-3", [("Age", .num (.finite (mkRat 25 1)))], none⟩,
   ⟨.str "row-4", [("Age", .str "")], none⟩,
   ⟨.str "row-5", [("Age", .str "old")], none⟩]

def ageCols : List ColumnStats :=
  [⟨"Age", .number, 0, 0, [], []⟩]

/-- **C4**: the score is `round(validCells / totalCells × 100)` over the
checked cells (with `jsRound` being exactly `⌊· + 1/2⌋`, the half-up
rounding of `Math.round`), defined as 100 when no cell was checked; an empty
row set yields score 100, isValid true and no violations for any column
descriptors; and the `Age` example yields one violation with issueCount 2,
examples `["N/A", "old"]` and score 60. -/
theorem claim_validator_score :
    (∀ data columns, (validateDataset data columns).score =
        if specTotalCells data columns = 0 then 100
        else jsRound (mkRat ((specValidCells data columns : ℤ) * 100)
          (specTotalCells data columns))) ∧
    (∀ q : ℚ, jsRound q = ⌊q + 1/2⌋) ∧
    (∀ columns, validateDataset [] columns = ⟨true, 100, [], 0⟩) ∧
    validateDataset ageRows ageCols =
      ⟨false, 60, [⟨"Age", .number, 2, ["N/A", "old"]⟩], 5⟩ := by
  refine ⟨?_, jsRound_eq_floor, ?_, by decide⟩
  · intro data columns
    rw [validateDataset_eq]
  · intro columns
    rw [validateDataset_eq]
    have herr : specErrors [] columns = [] := by
      unfold specErrors
      rw [List.filterMap_eq_nil_iff]
      intro col _
      exact specColViolation_nil col
    unfold specTotalCells
    simp [herr]

/-- One string cell among 250 rows of a number column: the ratio 249/250
rounds to 100 although a violation exists. -/
def bigRows : List DataRow :=
  (List.range 250).map fun j =>
    ⟨.str "r", [("A", if j = 0 then .str "x" else .num (.finite (mkRat 1 1)))], none⟩

/-- One string cell among 100 rows of a number column: score 99. -/
def medRows : List DataRow :=
  (List.range 100).map fun j =>
    ⟨.str "r", [("A", if j = 0 then .str "x" else .num (.finite (mkRat 1 1)))], none⟩

def oneNumCol : List ColumnStats :=
  [⟨"A", .number, 0, 0, [], []⟩]

set_option maxRecDepth 40000

/-- **C9** (counterexample): over 250 rows with exactly one nonconforming
cell, `validateDataset` returns a violation (`isValid = false`) together
with score 100 — `Math.round(249/250 × 100) = 100` — so "score = 100 only
when no violations were produced" fails. -/
theorem claim_isValid_score_counterexample :
    (validateDataset bigRows oneNumCol).isValid = false ∧
    (validateDataset bigRows oneNumCol).score = 100 ∧
    (validateDataset bigRows oneNumCol).errors.length = 1 := by decide

/-- **C9** (amended): `isValid` is true exactly when no violation records
were produced; score remains a distinct cell-level signal and can diverge
from the column-level `isValid` — a single nonconforming cell among 100 rows
yields `isValid = false` with score 99 (and, per the counterexample, even
score 100 is possible with `isValid = false`). -/
theorem claim_isValid_iff_no_errors :
    (∀ data columns,
      (validateDataset data columns).isValid = true ↔
        (validateDataset data columns).errors = []) ∧
    (validateDataset medRows oneNumCol).isValid = false ∧
    (validateDataset medRows oneNumCol).score = 99 := by
  refine ⟨?_, by decide, by decide⟩
  intro data columns
  rw [validateDataset_eq]
  exact List.isEmpty_iff

/-- Witness for **C9**'s amended equivalence at a concrete dataset. -/
theorem claim_isValid_iff_no_errors_witness :
    (validateDataset [] []).errors = [] :=
  (claim_isValid_iff_no_errors.1 [] []).mp (by decide)

/-! ### C5: tolerant parsing -/

theorem buildRows_length (headers : List String) :
    ∀ (ls : List (List Char)) (i : ℕ),
      (buildRows headers ls i).length =
        (ls.filter fun l => (parseLine l).length = headers.length).length := by
  intro ls
  induction ls with
  | nil => intro i; simp [buildRows]
  | cons l ls ih =>
    intro i
    unfold buildRows
    rw [List.filter_cons]
    by_cases hc : (parseLine l).length = headers.length <;> simp [hc, ih]

/-- **C5**: `parseCSV` never fails: blank-filtered input with no remaining
lines yields empty headers and rows rather than an error; a data line is
accepted exactly when its field count equals the header count, so the row
count is the number of exactly-matching lines and mismatched lines are
dropped whole — in particular header `a,b,c` with data line `1,2` yields
zero rows. -/
theorem claim_parse_tolerance :
    parseCSV "a,b,c\n1,2" = ⟨["a", "b", "c"], []⟩ ∧
    (∀ content : String, csvLines content = [] → parseCSV content = ⟨[], []⟩) ∧
    (∀ (content : String) (l0 : List Char) (rest : List (List Char)),
      csvLines content = l0 :: rest →
      (parseCSV content).headers = parseLine l0 ∧
      (parseCSV content).data.length =
        (rest.filter fun l => (parseLine l).length = (parseLine l0).length).length) := by
  refine ⟨by decide, ?_, ?_⟩
  · intro content h
    unfold parseCSV
    rw [h]
  · intro content l0 rest h
    unfold parseCSV
    rw [h]
    exact ⟨rfl, buildRows_length _ rest 1⟩

/-- Witness for **C5** at concrete inputs: whitespace-only input, and a
mixed matching/mismatching dataset. -/
theorem claim_parse_tolerance_witness :
    parseCSV " \n " = ⟨[], []⟩ ∧
    (parseCSV "a,b,c\n1,2,3\n4,5").data.length =
      ([['1', ',', '2', ',', '3'], ['4', ',', '5']].filter fun l =>
        (parseLine l).length = (parseLine ['a', ',', 'b', ',', 'c']).length).length :=
  ⟨claim_parse_tolerance.2.1 " \n " (by decide),
   (claim_parse_tolerance.2.2 "a,b,c\n1,2,3\n4,5" ['a', ',', 'b', ',', 'c']
      [['1', ',', '2', ',', '3'], ['4', ',', '5']] (by decide)).2⟩

/-! ### C6: serialization format -/

theorem stringExt {s t : String} (h : s.data = t.data) : s = t := by
  cases s
  cases t
  simp only at h
  rw [h]

theorem intercalate_go_data (s : String) :
    ∀ (as : List String) (acc : String),
      (String.intercalate.go acc s as).data =
        acc.data ++ as.flatMap fun a => s.data ++ a.data := by
  intro as
  induction as with
  | nil => intro acc; simp [String.intercalate.go]
  | cons a as ih =>
    intro acc
    rw [show String.intercalate.go acc s (a :: as) =
        String.intercalate.go (acc ++ s ++ a) s as from rfl]
    rw [ih]
    simp [String.data_append]

theorem joinSep_eq_flatMap (sep : List Char) :
    ∀ (xs : List (List Char)) (x : List Char),
      joinSep sep (x :: xs) = x ++ xs.flatMap fun a => sep ++ a := by
  intro xs
  induction xs with
  | nil => intro x; simp [joinSep]
  | cons y ys ih =>
    intro x
    rw [show joinSep sep (x :: y :: ys) = x ++ sep ++ joinSep sep (y :: ys) from rfl]
    rw [ih y]
    simp [List.append_assoc]

/-- `String.intercalate` agrees with `joinSep` on character data. -/
theorem intercalate_data (s : String) (l : List String) :
    (String.intercalate s l).data = joinSep s.data (l.map String.data) := by
  cases l with
  | nil => rfl
  | cons a as =>
    rw [show String.intercalate s (a :: as) = String.intercalate.go a s as from rfl]
    rw [intercalate_go_data, List.map_cons, joinSep_eq_flatMap, List.flatMap_map]

/-- §4.2 serialization as the spec words it: empty rows give the empty
string; otherwise the unquoted comma-joined header line (keys of the first
row minus the identifier), then for each row the header-ordered cells, each
stringified (nullish ↦ empty string), quote-doubled, wrapped in quotes
unconditionally and joined by commas; all lines joined by single newlines,
so no trailing newline follows the last row. -/
def specSerialize (rows : List DataRow) : String :=
  match rows with
  | [] => ""
  | r0 :: _ =>
    let headers := (jsKeys r0).filter fun k => k ≠ "id"
    String.intercalate "\n"
      (String.intercalate "," headers ::
        rows.map fun r =>
          String.intercalate ","
            (headers.map fun h =>
              "\"" ++ (⟨escQuotes (coalesceString (rowGet r h))⟩ : String) ++ "\""))

theorem exportCSV_eq_specSerialize (rows : List DataRow) :
    exportCSV rows = specSerialize rows := by
  cases rows with
  | nil => rfl
  | cons r0 rs =>
    unfold exportCSV specSerialize exportRowLine exportField
    refine stringExt ?_
    simp only [intercalate_data, List.map_cons, List.map_map, Function.comp_def,
      String.data_append, List.append_assoc, List.singleton_append, String.toList]
    rfl

/-- **C6**: `exportCSV` returns the empty string on an empty row list and
otherwise emits, per row and per header column in fixed order, the
stringified cell -- nullish values as the empty string -- with internal
double quotes doubled and wrapped in quotes unconditionally, fields joined
by commas and lines joined by single newlines with no trailing newline. -/
theorem claim_serialize_format :
    (∀ rows, exportCSV rows = specSerialize rows) ∧
    exportCSV [] = "" ∧
    coalesceString .jsUndefined = "" ∧ coalesceString (.cell .null) = "" ∧
    coalesceString (.cell (.bool true)) = "true" ∧
    coalesceString (.cell (.num (.finite (mkRat 5 2)))) = "2.5" ∧
    escQuotes "a\"b" = ['a', '"', '"', 'b'] ∧
    exportCSV [⟨.str "row-1", [("a", .str "x\"y"), ("b", .null)], none⟩] =
      "a,b\n\"x\"\"y\",\"\"" :=
  ⟨exportCSV_eq_specSerialize, rfl, rfl, rfl, rfl, by decide, by decide, by decide⟩

/-! ### C8: the `_flags` key in exported headers -/

/-- A repaired row carrying the internal `_flags` annotation object, as the
AI repair step produces (`geminiService.ts` line 330). -/
def flagsRow : DataRow :=
  ⟨.str "row-1", [("a", .num (.finite (mkRat 1 1)))],
   some [("a", "Review Needed: Coercion Failed")]⟩

/-- **C8** (evaluation at the failing input): `exportCSV` filters only `id`
from the first row's keys, so a row carrying the internal `_flags` map is
exported with a `_flags` column whose value prints as `[object Object]` --
contrary to the claim (and §4.2), which exclude the flag map like the
grid's `getActiveHeaders` does.  The first-row/no-union and id-exclusion
parts of the claim do hold, as the second conjunct shows on a second row
with an extra key. -/
theorem claim_export_flags_evaluation :
    exportCSV [flagsRow] = "a,_flags\n\"1\",\"[object Object]\"" ∧
    ("_flags" ∈ (jsKeys flagsRow).filter fun k => k ≠ "id") ∧
    exportCSV [⟨.str "r", [("a", .null)], none⟩,
               ⟨.str "r", [("a", .null), ("b", .str "z")], none⟩] =
      "a\n\"\"\n\"\"" := by
  refine ⟨by decide, by decide, by decide⟩

/-! ### C10: invariants of parse-produced string cells -/

theorem parseLineAux_mem :
    ∀ (cs : List Char) (inQ : Bool) (entry : List Char),
      (∀ c ∈ entry, c ≠ '"') →
      ∀ s ∈ parseLineAux cs inQ entry,
        ∃ e : List Char, (∀ c ∈ e, c ≠ '"') ∧ (∀ c ∈ e, c ∈ entry ∨ c ∈ cs) ∧
          s = jsTrim ⟨e⟩ := by
  intro cs
  induction cs with
  | nil =>
    intro inQ entry he s hs
    simp only [parseLineAux, List.mem_singleton] at hs
    exact ⟨entry, he, fun c hc => Or.inl hc, hs⟩
  | cons c r ih =>
    intro inQ entry he s hs
    unfold parseLineAux at hs
    by_cases hq : c = '"'
    · rw [if_pos hq] at hs
      obtain ⟨e, h1, h2, h3⟩ := ih (!inQ) entry he s hs
      exact ⟨e, h1, fun x hx => (h2 x hx).imp id (List.mem_cons_of_mem c), h3⟩
    · rw [if_neg hq] at hs
      by_cases hcm : c = ',' ∧ inQ = false
      · rw [if_pos hcm] at hs
        rcases List.mem_cons.mp hs with h | h
        · exact ⟨entry, he, fun x hx => Or.inl hx, h⟩
        · obtain ⟨e, h1, h2, h3⟩ := ih inQ [] (by simp) s h
          refine ⟨e, h1, fun x hx => ?_, h3⟩
          rcases h2 x hx with h4 | h4
          · simp at h4
          · exact Or.inr (List.mem_cons_of_mem c h4)
      · rw [if_neg hcm] at hs
        have he' : ∀ x ∈ entry ++ [c], x ≠ '"' := by
          intro x hx
          rcases List.mem_append.mp hx with h4 | h4
          · exact he x h4
          · simp at h4
            simpa [h4] using hq
        obtain ⟨e, h1, h2, h3⟩ := ih inQ (entry ++ [c]) he' s hs
        refine ⟨e, h1, fun x hx => ?_, h3⟩
        rcases h2 x hx with h4 | h4
        · rcases List.mem_append.mp h4 with h5 | h5
          · exact Or.inl h5
          · simp at h5
            simp [h5]
        · exact Or.inr (List.mem_cons_of_mem c h4)

theorem stripQuotes_eq_self {s : String} (h : ∀ c ∈ s.toList, c ≠ '"') :
    stripQuotes s = s := by
  unfold stripQuotes
  dsimp only
  have h1 : ¬s.toList.head? = some '"' := by
    intro hh
    exact h '"' (List.mem_of_mem_head? hh) rfl
  rw [if_neg h1]
  have h2 : ¬s.toList.getLast? = some '"' := by
    intro hh
    obtain ⟨hne, hcl⟩ := List.mem_getLast?_eq_getLast hh
    exact h '"' (hcl ▸ List.getLast_mem hne) rfl
  rw [if_neg h2]
  exact stringExt rfl

/-- Every field produced by `parseLine` is trimmed, quote-free, and drawn
from the input line's characters. -/
theorem parseLine_mem {line : List Char} {v : String} (hv : v ∈ parseLine line) :
    (∀ c ∈ v.toList, c ≠ '"') ∧ (∀ c ∈ v.toList, c ∈ line) ∧ jsTrim v = v := by
  unfold parseLine at hv
  obtain ⟨s, hs, hsv⟩ := List.mem_map.mp hv
  obtain ⟨e, he, hee, hse⟩ := parseLineAux_mem line false [] (by simp) s hs
  have hslist : s.toList = trimList e := by
    rw [hse]
    rfl
  have hq : ∀ c ∈ s.toList, c ≠ '"' := by
    intro c hc
    exact he c (mem_trimList (hslist ▸ hc))
  have hvs : v = s := by
    rw [← hsv, stripQuotes_eq_self hq]
  subst hvs
  refine ⟨hq, ?_, ?_⟩
  · intro c hc
    rcases hee c (mem_trimList (hslist ▸ hc)) with h4 | h4
    · simp at h4
    · exact h4
  · refine stringExt ?_
    show trimList v.toList = v.data
    rw [show v.toList = v.data from rfl] at hslist ⊢
    rw [hslist, trimList_idem]

theorem jsSet_mem {k : String} {v : CellValue} :
    ∀ {cells : List (String × CellValue)} {p : String × CellValue},
      p ∈ jsSet cells k v → p = (k, v) ∨ p ∈ cells := by
  intro cells
  induction cells with
  | nil =>
    intro p hp
    simp only [jsSet, List.mem_singleton] at hp
    exact Or.inl hp
  | cons c rest ih =>
    intro p hp
    rcases c with ⟨k', v'⟩
    unfold jsSet at hp
    by_cases hk : k' = k
    · rw [if_pos hk] at hp
      rcases List.mem_cons.mp hp with h | h
      · exact Or.inl h
      · exact Or.inr (List.mem_cons_of_mem _ h)
    · rw [if_neg hk] at hp
      rcases List.mem_cons.mp hp with h | h
      · exact Or.inr (h ▸ List.mem_cons_self _ _)
      · rcases ih h with h4 | h4
        · exact Or.inl h4
        · exact Or.inr (List.mem_cons_of_mem _ h4)

theorem rowSet_cells_mem {r : DataRow} {k : String} {v : CellValue}
    {p : String × CellValue} (hp : p ∈ (rowSet r k v).cells) :
    p = (k, v) ∨ p ∈ r.cells := by
  unfold rowSet at hp
  by_cases hk : k = "id"
  · rw [if_pos hk] at hp
    exact Or.inr hp
  · rw [if_neg hk] at hp
    exact jsSet_mem hp

theorem foldl_rowSet_cells_mem :
    ∀ (ps : List (String × String)) (r : DataRow) {p : String × CellValue},
      p ∈ (ps.foldl (fun r hv => rowSet r hv.1 (inferCell hv.2)) r).cells →
      p ∈ r.cells ∨ ∃ hv ∈ ps, p.1 = hv.1 ∧ p.2 = inferCell hv.2 := by
  intro ps
  induction ps with
  | nil =>
    intro r p hp
    exact Or.inl hp
  | cons hv ps ih =>
    intro r p hp
    rw [List.foldl_cons] at hp
    rcases ih _ hp with h | ⟨hv', hmem, h1, h2⟩
    · rcases rowSet_cells_mem h with h4 | h4
      · exact Or.inr ⟨hv, List.mem_cons_self _ _, by rw [h4], by rw [h4]⟩
      · exact Or.inl h4
    · exact Or.inr ⟨hv', List.mem_cons_of_mem _ hmem, h1, h2⟩

theorem buildRow_cells_mem {i : ℕ} {headers values : List String}
    {p : String × CellValue} (hp : p ∈ (buildRow i headers values).cells) :
    ∃ hv ∈ headers.zip values, p.1 = hv.1 ∧ p.2 = inferCell hv.2 := by
  unfold buildRow at hp
  rcases foldl_rowSet_cells_mem _ _ hp with h | h
  · simp at h
  · exact h

theorem buildRows_mem {headers : List String} :
    ∀ {ls : List (List Char)} {i : ℕ} {row : DataRow},
      row ∈ buildRows headers ls i →
      ∃ l ∈ ls, ∃ j, row = buildRow j headers (parseLine l) ∧
        (parseLine l).length = headers.length := by
  intro ls
  induction ls with
  | nil =>
    intro i row hrow
    simp [buildRows] at hrow
  | cons l ls ih =>
    intro i row hrow
    unfold buildRows at hrow
    by_cases hc : (parseLine l).length = headers.length
    · rw [if_pos hc] at hrow
      rcases List.mem_cons.mp hrow with h | h
      · exact ⟨l, List.mem_cons_self _ _, i, h, hc⟩
      · obtain ⟨l', h1, j, h2, h3⟩ := ih h
        exact ⟨l', List.mem_cons_of_mem _ h1, j, h2, h3⟩
    · rw [if_neg hc] at hrow
      obtain ⟨l', h1, j, h2, h3⟩ := ih hrow
      exact ⟨l', List.mem_cons_of_mem _ h1, j, h2, h3⟩

theorem inferCell_str {v s : String} (h : inferCell v = .str s) :
    s = v ∧ ¬(v = "" ∨ jsToLower v = "null" ∨ jsToLower v = "nan") ∧
    jsToLower v ≠ "true" ∧ jsToLower v ≠ "false" ∧
    (jsNumber v = none ∨ jsTrim v = "") := by
  unfold inferCell inferBoolStr at h
  by_cases h1 : v = "" ∨ jsToLower v = "null" ∨ jsToLower v = "nan"
  · simp [h1] at h
  · simp only [h1, if_false] at h
    rcases hn : jsNumber v with _ | n <;> rw [hn] at h
    · by_cases h2 : jsToLower v = "true"
      · simp [h2] at h
      · by_cases h3 : jsToLower v = "false"
        · simp [h2, h3] at h
        · simp only [h2, h3, if_false] at h
          cases h
          exact ⟨rfl, h1, h2, h3, Or.inl rfl⟩
    · by_cases ht : jsTrim v = ""
      · simp only [ht, ne_eq, not_true_eq_false, if_false] at h
        by_cases h2 : jsToLower v = "true"
        · simp [h2] at h
        · by_cases h3 : jsToLower v = "false"
          · simp [h2, h3] at h
          · simp only [h2, h3, if_false] at h
            cases h
            exact ⟨rfl, h1, h2, h3, Or.inr ht⟩
      · simp [ht] at h

/-- **C10**: every string-valued cell of a parsed row is a fixed point of
the §4.1 classification: non-empty, quote-free, trimmed, not a null/boolean
literal in any case, not numeric-parseable; re-classifying it returns the
same string cell. -/
theorem claim_string_cells_fixed_point :
    ∀ (content : String), ∀ row ∈ (parseCSV content).data,
      ∀ p ∈ row.cells, ∀ s : String, p.2 = .str s →
        s ≠ "" ∧ (∀ c ∈ s.toList, c ≠ '"') ∧ jsTrim s = s ∧
        jsToLower s ≠ "null" ∧ jsToLower s ≠ "nan" ∧
        jsToLower s ≠ "true" ∧ jsToLower s ≠ "false" ∧
        jsNumber s = none ∧ inferCell s = .str s := by
  intro content row hrow p hp s hps
  unfold parseCSV at hrow
  rcases hl : csvLines content with _ | ⟨l0, rest⟩ <;> rw [hl] at hrow
  · simp at hrow
  · simp only [] at hrow
    obtain ⟨l, _, j, hrw, _⟩ := buildRows_mem hrow
    rw [hrw] at hp
    obtain ⟨hv, hhv, hp1, hp2⟩ := buildRow_cells_mem hp
    have hvals : hv.2 ∈ parseLine l := (List.of_mem_zip hhv).2
    obtain ⟨hquote, _, htrim⟩ := parseLine_mem hvals
    rw [hps] at hp2
    obtain ⟨hsv, hnotnull, hnt, hnf, hnum⟩ := inferCell_str hp2.symm
    subst hsv
    have hne : hv.2 ≠ "" := fun h => hnotnull (Or.inl h)
    have htne : jsTrim hv.2 ≠ "" := by rw [htrim]; exact hne
    have hnn : jsNumber hv.2 = none := by
      rcases hnum with h | h
      · exact h
      · exact absurd h htne
    refine ⟨hne, hquote, htrim, fun h => hnotnull (Or.inr (Or.inl h)),
      fun h => hnotnull (Or.inr (Or.inr h)), hnt, hnf, hnn, ?_⟩
    unfold inferCell
    rw [if_neg hnotnull, hnn]
    unfold inferBoolStr
    rw [if_neg hnt, if_neg hnf]

/-- Witness for **C10** at the concrete input `"h\nabc"`. -/
theorem claim_string_cells_fixed_point_witness :
    inferCell "abc" = .str "abc" :=
  (claim_string_cells_fixed_point "h\nabc"
    ⟨.str "row-1", [("h", .str "abc")], none⟩ (by decide)
    ("h", .str "abc") (by decide) "abc" rfl).2.2.2.2.2.2.2.2

/-! ### Character-class facts for the round-trip proof -/

theorem isDigitCh_bounds {c : Char} (h : isDigitCh c = true) :
    48 ≤ c.toNat ∧ c.toNat ≤ 57 := by
  unfold isDigitCh at h
  simp only [Bool.and_eq_true, decide_eq_true_eq] at h
  obtain ⟨h0, h9⟩ := h
  rw [Char.le_def, UInt32.le_def, BitVec.le_def] at h0 h9
  have e0 : ('0'.val.toBitVec.toNat) = 48 := rfl
  have e9 : ('9'.val.toBitVec.toNat) = 57 := rfl
  rw [e0] at h0
  rw [e9] at h9
  exact ⟨h0, h9⟩

theorem isDigitCh_ne {c : Char} (h : isDigitCh c = true) (d : Char)
    (hd : d.toNat < 48 ∨ 57 < d.toNat) : c ≠ d := by
  intro he
  subst he
  have := isDigitCh_bounds h
  omega

theorem isDigitCh_toLower {c : Char} (h : isDigitCh c = true) : Char.toLower c = c := by
  unfold Char.toLower
  rw [if_neg]
  intro hc
  have := isDigitCh_bounds h
  omega

theorem isDigitCh_not_ws {c : Char} (h : isDigitCh c = true) : isWs c = false := by
  unfold isWs
  have h1 := isDigitCh_ne h ' ' (by decide)
  have h2 := isDigitCh_ne h '\t' (by decide)
  have h3 := isDigitCh_ne h '\n' (by decide)
  have h4 := isDigitCh_ne h '\r' (by decide)
  simp [h1, h2, h3, h4]

/-- The characters a finite-number rendering can contain. -/
def isRenderCh (c : Char) : Bool :=
  isDigitCh c || c = '.' || c = '-'

theorem isRenderCh_not_ws {c : Char} (h : isRenderCh c = true) : isWs c = false := by
  unfold isRenderCh at h
  simp only [Bool.or_eq_true, decide_eq_true_eq] at h
  rcases h with (h | h) | h
  · exact isDigitCh_not_ws h
  · subst h; decide
  · subst h; decide

theorem isRenderCh_facts {c : Char} (h : isRenderCh c = true) :
    c ≠ '"' ∧ c ≠ '\n' ∧ Char.toLower c = c := by
  unfold isRenderCh at h
  simp only [Bool.or_eq_true, decide_eq_true_eq] at h
  rcases h with (h | h) | h
  · exact ⟨isDigitCh_ne h '"' (by decide), isDigitCh_ne h '\n' (by decide),
      isDigitCh_toLower h⟩
  · subst h; refine ⟨by decide, by decide, by decide⟩
  · subst h; refine ⟨by decide, by decide, by decide⟩

theorem digitVal_digitChar {d : ℕ} (h : d < 10) : digitVal (digitChar d) = d := by
  interval_cases d <;> decide

theorem isDigitCh_digitChar {d : ℕ} (h : d < 10) : isDigitCh (digitChar d) = true := by
  interval_cases d <;> decide

/-! ### Digit strings and their values -/

theorem digitsToNat_from (ds : List Char) : ∀ i : ℕ,
    ds.foldl (fun a c => 10 * a + digitVal c) i = i * 10 ^ ds.length + digitsToNat ds := by
  induction ds with
  | nil => intro i; simp [digitsToNat]
  | cons d ds ih =>
    intro i
    rw [List.foldl_cons, ih (10 * i + digitVal d)]
    unfold digitsToNat
    rw [List.foldl_cons, ih (10 * 0 + digitVal d)]
    simp only [List.length_cons, pow_succ]
    rw [show List.foldl (fun a c => 10 * a + digitVal c) 0 ds = digitsToNat ds from rfl]
    ring

theorem digitsToNat_append (a b : List Char) :
    digitsToNat (a ++ b) = digitsToNat a * 10 ^ b.length + digitsToNat b := by
  unfold digitsToNat
  rw [List.foldl_append]
  rw [digitsToNat_from b (List.foldl (fun a c => 10 * a + digitVal c) 0 a)]
  rfl

theorem digitsToNat_replicate_zero (k : ℕ) :
    digitsToNat (List.replicate k '0') = 0 := by
  induction k with
  | zero => rfl
  | succ k ih =>
    rw [List.replicate_succ]
    unfold digitsToNat at ih ⊢
    rw [List.foldl_cons]
    have : 10 * 0 + digitVal '0' = 0 := by decide
    rw [this, ih]

theorem natDigitsLEAux_spec :
    ∀ (fuel n : ℕ), n < fuel →
      (natDigitsLEAux fuel n).reverse ≠ [] ∧
      (∀ c ∈ (natDigitsLEAux fuel n).reverse, isDigitCh c = true) ∧
      digitsToNat (natDigitsLEAux fuel n).reverse = n := by
  intro fuel
  induction fuel with
  | zero => intro n h; omega
  | succ fuel ih =>
    intro n h
    unfold natDigitsLEAux
    by_cases h10 : n < 10
    · rw [if_pos h10]
      refine ⟨by simp, ?_, ?_⟩
      · intro c hc
        simp at hc
        rw [hc]
        exact isDigitCh_digitChar h10
      · show digitsToNat [digitChar n] = n
        unfold digitsToNat
        rw [List.foldl_cons]
        simp [digitVal_digitChar h10]
    · rw [if_neg h10]
      have hlt : n / 10 < fuel := by omega
      obtain ⟨ih1, ih2, ih3⟩ := ih (n / 10) hlt
      rw [List.reverse_cons]
      refine ⟨by simp, ?_, ?_⟩
      · intro c hc
        rcases List.mem_append.mp hc with h4 | h4
        · exact ih2 c h4
        · simp at h4
          rw [h4]
          exact isDigitCh_digitChar (by omega)
      · rw [digitsToNat_append, ih3]
        show n / 10 * 10 ^ ([digitChar (n % 10)].length) + digitsToNat [digitChar (n % 10)] = n
        have : digitsToNat [digitChar (n % 10)] = n % 10 := by
          unfold digitsToNat
          rw [List.foldl_cons]
          simp [digitVal_digitChar (Nat.mod_lt n (by omega))]
        rw [this]
        simp only [List.length_singleton, pow_one]
        omega

theorem natDigits_spec (n : ℕ) :
    natDigits n ≠ [] ∧ (∀ c ∈ natDigits n, isDigitCh c = true) ∧
      digitsToNat (natDigits n) = n :=
  natDigitsLEAux_spec (n + 1) n (by omega)

/-! ### Denominators dividing powers of ten -/

theorem padValAux_ge {p : ℕ} (hp : 2 ≤ p) :
    ∀ (a fuel n : ℕ), n ≤ fuel → 1 ≤ n → p ^ a ∣ n → a ≤ padValAux p fuel n := by
  intro a
  induction a with
  | zero => intro fuel n _ _ _; omega
  | succ a ih =>
    intro fuel n hfuel hn hdvd
    have hpn : p ∣ n := dvd_trans (dvd_pow_self p (Nat.succ_ne_zero a)) hdvd
    rcases fuel with _ | f
    · omega
    · unfold padValAux
      have hmod : n % p = 0 := by
        obtain ⟨c, rfl⟩ := hpn
        exact Nat.mul_mod_right p c
      rw [if_pos ⟨hp, hn, hmod⟩]
      have h1 : 1 ≤ n / p :=
        (Nat.one_le_div_iff (by omega)).mpr (Nat.le_of_dvd (by omega) hpn)
      have h2 : n / p ≤ f := by
        have : n / p < n := Nat.div_lt_self (by omega) (by omega)
        omega
      have h3 : p ^ a ∣ n / p := by
        obtain ⟨c, hc⟩ := hdvd
        refine ⟨c, ?_⟩
        rw [hc, pow_succ, show p ^ a * p * c = p * (p ^ a * c) by ring]
        exact Nat.mul_div_cancel_left _ (by omega)
      have := ih f (n / p) h2 h1 h3
      omega

theorem den_dvd_ten_pow_max {den : ℕ} (hpos : 0 < den) {j : ℕ}
    (hdvd : den ∣ 10 ^ j) :
    den ∣ 10 ^ max (padVal 2 den) (padVal 5 den) := by
  have h25 : den ∣ 2 ^ j * 5 ^ j := by
    rw [← Nat.mul_pow]
    exact hdvd
  obtain ⟨d1, d2, h1, h2, h12⟩ := exists_dvd_and_dvd_of_dvd_mul h25
  obtain ⟨a, _, rfl⟩ := (Nat.dvd_prime_pow Nat.prime_two).mp h1
  obtain ⟨b, _, rfl⟩ := (Nat.dvd_prime_pow Nat.prime_five).mp h2
  have h2a : 2 ^ a ∣ den := h12 ▸ dvd_mul_right _ _
  have h5b : 5 ^ b ∣ den := h12 ▸ dvd_mul_left _ _
  have ha : a ≤ padVal 2 den := padValAux_ge (by omega) a den den le_rfl hpos h2a
  have hb : b ≤ padVal 5 den := padValAux_ge (by omega) b den den le_rfl hpos h5b
  have hk2 : a ≤ max (padVal 2 den) (padVal 5 den) := le_trans ha (le_max_left _ _)
  have hk5 : b ≤ max (padVal 2 den) (padVal 5 den) := le_trans hb (le_max_right _ _)
  calc den = 2 ^ a * 5 ^ b := h12
    _ ∣ 2 ^ max (padVal 2 den) (padVal 5 den) * 5 ^ max (padVal 2 den) (padVal 5 den) :=
        mul_dvd_mul (pow_dvd_pow 2 hk2) (pow_dvd_pow 5 hk5)
    _ = 10 ^ max (padVal 2 den) (padVal 5 den) := by rw [← Nat.mul_pow]

/-! ### Parsing rendered digit strings -/

theorem takeWhile_dropWhile_append {p : Char → Bool} :
    ∀ (ds rest : List Char), (∀ c ∈ ds, p c = true) →
      (∀ c, rest.head? = some c → p c = false) →
      (ds ++ rest).takeWhile p = ds ∧ (ds ++ rest).dropWhile p = rest := by
  intro ds
  induction ds with
  | nil =>
    intro rest _ hrest
    cases rest with
    | nil => simp
    | cons c r =>
      have hc := hrest c rfl
      constructor
      · simp [List.takeWhile_cons, hc]
      · simp [List.dropWhile_cons, hc]
  | cons d ds ih =>
    intro rest hds hrest
    have hd : p d = true := hds d (List.mem_cons_self _ _)
    obtain ⟨ht, hdr⟩ := ih rest (fun c hc => hds c (List.mem_cons_of_mem _ hc)) hrest
    constructor
    · rw [List.cons_append, List.takeWhile_cons_of_pos hd, ht]
    · rw [List.cons_append, List.dropWhile_cons_of_pos hd, hdr]

theorem parseUnsigned_all_digits {ds : List Char} (hne : ds ≠ [])
    (hds : ∀ c ∈ ds, isDigitCh c = true) :
    parseUnsigned ds = some (mkRat (digitsToNat ds) 1, []) := by
  obtain ⟨ht, hd⟩ := takeWhile_dropWhile_append ds [] hds (by simp)
  rw [List.append_nil] at ht hd
  unfold parseUnsigned
  simp [ht, hd, hne]

theorem parseUnsigned_with_frac {I F : List Char} (hI : I ≠ [])
    (hdI : ∀ c ∈ I, isDigitCh c = true) (hdF : ∀ c ∈ F, isDigitCh c = true) :
    parseUnsigned (I ++ '.' :: F) = some (fracVal (digitsToNat I) F, []) := by
  obtain ⟨ht, hd⟩ := takeWhile_dropWhile_append I ('.' :: F) hdI
    (by intro c hc; simp at hc; rw [← hc]; decide)
  obtain ⟨htF, hdF'⟩ := takeWhile_dropWhile_append F [] hdF (by simp)
  rw [List.append_nil] at htF hdF'
  unfold parseUnsigned
  simp [ht, hd, hI, htF, hdF']

theorem renderCore_spec (q : ℚ) (k m : ℕ)
    (hm : (m : ℚ) = q * ((10 ^ k : ℕ) : ℚ)) :
    parseUnsigned (renderCore k m) = some (q, []) ∧
    renderCore k m ≠ [] ∧
    (∀ c ∈ renderCore k m, isDigitCh c = true ∨ c = '.') ∧
    (∃ c t, renderCore k m = c :: t ∧ isDigitCh c = true) := by
  obtain ⟨hdne, hddig, hdval⟩ := natDigits_spec m
  by_cases hk0 : k = 0
  · subst hk0
    have hrc : renderCore 0 m = natDigits m := by
      unfold renderCore
      simp
    rw [hrc]
    have hq : q = (m : ℚ) := by
      rw [hm]
      simp
    refine ⟨?_, hdne, fun c hc => Or.inl (hddig c hc), ?_⟩
    · rw [parseUnsigned_all_digits hdne hddig, hdval, hq, Rat.mkRat_eq_div]
      norm_num
    · rcases hd : natDigits m with _ | ⟨c, t⟩
      · exact absurd hd hdne
      · exact ⟨c, t, rfl, hddig c (hd ▸ List.mem_cons_self _ _)⟩
  · have hrc : renderCore k m =
        (List.replicate (k + 1 - (natDigits m).length) '0' ++ natDigits m).take
          ((List.replicate (k + 1 - (natDigits m).length) '0' ++ natDigits m).length - k) ++
        '.' :: (List.replicate (k + 1 - (natDigits m).length) '0' ++ natDigits m).drop
          ((List.replicate (k + 1 - (natDigits m).length) '0' ++ natDigits m).length - k) := by
      unfold renderCore
      simp [hk0]
    set padded := List.replicate (k + 1 - (natDigits m).length) '0' ++ natDigits m with hpad
    have hplen : k + 1 ≤ padded.length := by
      rw [hpad]
      simp only [List.length_append, List.length_replicate]
      omega
    have hpdig : ∀ c ∈ padded, isDigitCh c = true := by
      intro c hc
      rw [hpad] at hc
      rcases List.mem_append.mp hc with h | h
      · rw [List.eq_of_mem_replicate h]; decide
      · exact hddig c h
    have hpval : digitsToNat padded = m := by
      rw [hpad, digitsToNat_append, digitsToNat_replicate_zero, hdval]
      simp
    set I := padded.take (padded.length - k) with hIdef
    set F := padded.drop (padded.length - k) with hFdef
    have hIF : I ++ F = padded := List.take_append_drop _ _
    have hFlen : F.length = k := by
      rw [hFdef, List.length_drop]
      omega
    have hIlen : I.length = padded.length - k := by
      rw [hIdef, List.length_take]
      omega
    have hIne : I ≠ [] := by
      have : 0 < I.length := by omega
      exact List.length_pos.mp this
    have hIdig : ∀ c ∈ I, isDigitCh c = true := by
      intro c hc
      apply hpdig
      rw [← hIF]
      exact List.mem_append_left F hc
    have hFdig : ∀ c ∈ F, isDigitCh c = true := by
      intro c hc
      apply hpdig
      rw [← hIF]
      exact List.mem_append_right I hc
    rw [hrc]
    refine ⟨?_, by simp [hIne], ?_, ?_⟩
    · rw [parseUnsigned_with_frac hIne hIdig hFdig]
      have hsplit : digitsToNat I * 10 ^ k + digitsToNat F = m := by
        rw [← hpval, ← hIF, digitsToNat_append, hFlen]
      unfold fracVal
      rw [hFlen]
      have hz : (digitsToNat I : ℤ) * 10 ^ k + (digitsToNat F : ℤ) = (m : ℤ) := by
        exact_mod_cast congrArg (fun n : ℕ => (n : ℤ)) hsplit
      rw [hz]
      have : mkRat (m : ℤ) (10 ^ k) = q := by
        rw [Rat.mkRat_eq_div]
        have hm' := hm
        have hpk : ((10 : ℚ)) ^ k ≠ 0 := by positivity
        push_cast at hm' ⊢
        rw [hm']
        field_simp
      rw [this]
    · intro c hc
      rcases List.mem_append.mp hc with h | h
      · exact Or.inl (hIdig c h)
      · rcases List.mem_cons.mp h with h4 | h4
        · exact Or.inr h4
        · exact Or.inl (hFdig c h4)
    · obtain ⟨c, t, hct⟩ := List.exists_cons_of_ne_nil hIne
      refine ⟨c, t ++ '.' :: F, ?_, hIdig c (by rw [hct]; exact List.mem_cons_self _ _)⟩
      rw [hct]
      simp

theorem renderNonneg_spec {q : ℚ} (hq : 0 ≤ q) {j : ℕ} (hdvd : q.den ∣ 10 ^ j) :
    parseUnsigned (renderNonneg q) = some (q, []) ∧
    renderNonneg q ≠ [] ∧
    (∀ c ∈ renderNonneg q, isDigitCh c = true ∨ c = '.') ∧
    (∃ c t, renderNonneg q = c :: t ∧ isDigitCh c = true) := by
  obtain ⟨c0, hc0⟩ := den_dvd_ten_pow_max q.den_pos hdvd
  have hnum : 0 ≤ q.num := Rat.num_nonneg.mpr hq
  have hm_eq : q.num.natAbs * 10 ^ max (padVal 2 q.den) (padVal 5 q.den) / q.den =
      q.num.natAbs * c0 := by
    rw [hc0, show q.num.natAbs * (q.den * c0) = q.den * (q.num.natAbs * c0) by ring]
    exact Nat.mul_div_cancel_left _ q.den_pos
  have hmq : ((q.num.natAbs * 10 ^ max (padVal 2 q.den) (padVal 5 q.den) / q.den : ℕ) : ℚ) =
      q * ((10 ^ max (padVal 2 q.den) (padVal 5 q.den) : ℕ) : ℚ) := by
    have h1 : (q.num.natAbs * 10 ^ max (padVal 2 q.den) (padVal 5 q.den) / q.den) * q.den =
        q.num.natAbs * 10 ^ max (padVal 2 q.den) (padVal 5 q.den) := by
      rw [hm_eq, hc0]
      ring
    have hden : (q.den : ℚ) ≠ 0 := by
      exact_mod_cast q.den_nz
    have h2 := congrArg (fun n : ℕ => (n : ℚ)) h1
    push_cast at h2
    rw [Int.cast_natAbs, abs_of_nonneg hnum] at h2
    set K := max (padVal 2 q.den) (padVal 5 q.den) with hK
    conv_rhs => rw [show q = (q.num : ℚ) / (q.den : ℚ) from (Rat.num_div_den q).symm]
    rw [div_mul_eq_mul_div, eq_div_iff hden]
    push_cast
    rw [h2]
  exact renderCore_spec q _ _ hmq

/-! ### Denominator structure of parsed numeric values -/

/-- The denominator divides a power of ten (true of every finite value the
`Number` grammar can produce). -/
def DecDen (p : ℚ) : Prop := ∃ j : ℕ, p.den ∣ 10 ^ j

theorem decDen_mkRat_pow (n : ℤ) (f : ℕ) : DecDen (mkRat n (10 ^ f)) := by
  refine ⟨f, ?_⟩
  have h := Rat.den_dvd n ((10 ^ f : ℕ) : ℤ)
  rw [← Rat.mkRat_eq_divInt] at h
  exact_mod_cast h

theorem decDen_mkRat_one (n : ℤ) : DecDen (mkRat n 1) := by
  have h : (10 : ℕ) ^ 0 = 1 := rfl
  rw [← h]
  exact decDen_mkRat_pow n 0

theorem decDen_mkRat_den {v : ℚ} (hv : DecDen v) (n : ℤ) : DecDen (mkRat n v.den) := by
  obtain ⟨j, hj⟩ := hv
  refine ⟨j, dvd_trans ?_ hj⟩
  have h := Rat.den_dvd n ((v.den : ℕ) : ℤ)
  rw [← Rat.mkRat_eq_divInt] at h
  exact_mod_cast h

theorem decDen_fracVal (i : ℕ) (F : List Char) : DecDen (fracVal i F) :=
  decDen_mkRat_pow _ _

theorem decDen_applySign {v : ℚ} (hv : DecDen v) (sgn : ℤ) :
    DecDen (applySign sgn v) :=
  decDen_mkRat_den hv _

theorem decDen_applyExp {v : ℚ} (hv : DecDen v) (e : ℤ) :
    DecDen (applyExp v e) := by
  unfold applyExp
  by_cases he : 0 ≤ e
  · rw [if_pos he]
    exact decDen_mkRat_den hv _
  · rw [if_neg he]
    obtain ⟨j, hj⟩ := hv
    refine ⟨j + (-e).toNat, ?_⟩
    have h := Rat.den_dvd v.num ((v.den * 10 ^ (-e).toNat : ℕ) : ℤ)
    rw [← Rat.mkRat_eq_divInt] at h
    have h' : (mkRat v.num (v.den * 10 ^ (-e).toNat)).den ∣ v.den * 10 ^ (-e).toNat := by
      exact_mod_cast h
    refine dvd_trans h' ?_
    rw [pow_add]
    exact mul_dvd_mul hj dvd_rfl

theorem parseUnsigned_decDen {cs : List Char} {v : ℚ} {rest : List Char}
    (h : parseUnsigned cs = some (v, rest)) : DecDen v := by
  unfold parseUnsigned at h
  dsimp only at h
  split at h
  · split at h
    · split at h
      · exact absurd h (by simp)
      · rw [Option.some.injEq, Prod.mk.injEq] at h
        rw [← h.1]
        exact decDen_fracVal _ _
    · exact absurd h (by simp)
  · split at h
    · rw [Option.some.injEq, Prod.mk.injEq] at h
      rw [← h.1]
      exact decDen_fracVal _ _
    · rw [Option.some.injEq, Prod.mk.injEq] at h
      rw [← h.1]
      exact decDen_mkRat_one _

theorem parseDecTail_decDen {sgn : ℤ} {v q : ℚ} {rest : List Char}
    (hv : DecDen v) (h : parseDecTail sgn v rest = some q) : DecDen q := by
  unfold parseDecTail at h
  split at h
  · rw [Option.some.injEq] at h
    rw [← h]
    exact decDen_applySign hv sgn
  · rename_i c r
    split at h
    · rcases hopt : parseExp r with _ | e <;> rw [hopt] at h
      · exact absurd h (by simp)
      · simp only [Option.map, Option.some.injEq] at h
        rw [← h]
        exact decDen_applySign (decDen_applyExp hv e) sgn
    · exact absurd h (by simp)

theorem parseDecCore_decDen {cs : List Char} {q : ℚ}
    (h : parseDecCore cs = some q) : DecDen q := by
  unfold parseDecCore parseDecSigned at h
  split at h
  · rcases hu : parseUnsigned cs.tail with _ | ⟨v, rest⟩ <;> rw [hu] at h
    · exact absurd h (by simp)
    · exact parseDecTail_decDen (parseUnsigned_decDen hu) h
  · split at h
    · rcases hu : parseUnsigned cs.tail with _ | ⟨v, rest⟩ <;> rw [hu] at h
      · exact absurd h (by simp)
      · exact parseDecTail_decDen (parseUnsigned_decDen hu) h
    · rcases hu : parseUnsigned cs with _ | ⟨v, rest⟩ <;> rw [hu] at h
      · exact absurd h (by simp)
      · exact parseDecTail_decDen (parseUnsigned_decDen hu) h

theorem jsNumber_finite_decDen {s : String} {q : ℚ}
    (h : jsNumber s = some (.finite q)) : DecDen q := by
  unfold jsNumber at h
  dsimp only at h
  split at h
  · rw [Option.some.injEq] at h
    injection h with h1
    rw [← h1]
    exact ⟨0, by simp⟩
  · split at h
    · simp at h
    · split at h
      · simp at h
      · split at h
        · split at h
          · rw [Option.some.injEq] at h
            injection h with h1
            rw [← h1]
            exact decDen_mkRat_one _
          · simp at h
        · split at h
          · split at h
            · rw [Option.some.injEq] at h
              injection h with h1
              rw [← h1]
              exact decDen_mkRat_one _
            · simp at h
          · split at h
            · split at h
              · rw [Option.some.injEq] at h
                injection h with h1
                rw [← h1]
                exact decDen_mkRat_one _
              · simp at h
            · rcases hp : parseDecCore (trimList s.toList) with _ | w <;> rw [hp] at h
              · simp at h
              · simp only [Option.map, Option.some.injEq] at h
                injection h with h1
                rw [← h1]
                exact parseDecCore_decDen hp

/-! ### Number printing round-trips through `Number` -/

theorem applySign_one (v : ℚ) : applySign 1 v = v := by
  unfold applySign
  rw [one_mul, Rat.mkRat_self]

theorem applySign_neg_one (v : ℚ) : applySign (-1) v = -v := by
  unfold applySign
  rw [Rat.mkRat_eq_div]
  push_cast
  rw [neg_one_mul, neg_div, Rat.num_div_den]

theorem ne_infinity_lists {c : Char} {t : List Char} (hc : isDigitCh c = true ∨ c = '-')
    (hbody : c = '-' → ∃ c2 t2, t = c2 :: t2 ∧ isDigitCh c2 = true) :
    (c :: t ≠ "Infinity".toList ∧ c :: t ≠ "+Infinity".toList ∧
     c :: t ≠ "-Infinity".toList) := by
  refine ⟨?_, ?_, ?_⟩
  · intro he
    have hc1 : c = 'I' := by
      have := congrArg List.head? he
      simpa using this
    rcases hc with h | h
    · exact absurd hc1 (isDigitCh_ne h 'I' (by decide))
    · rw [h] at hc1
      cases hc1
  · intro he
    have hc1 : c = '+' := by
      have := congrArg List.head? he
      simpa using this
    rcases hc with h | h
    · exact absurd hc1 (isDigitCh_ne h '+' (by decide))
    · rw [h] at hc1
      cases hc1
  · intro he
    have hc1 : c = '-' := by
      have := congrArg List.head? he
      simpa using this
    obtain ⟨c2, t2, ht2, hc2⟩ := hbody hc1
    have : t.head? = some 'I' := by
      have := congrArg List.tail he
      simp at this
      rw [this]
      rfl
    rw [ht2] at this
    simp at this
    exact (isDigitCh_ne hc2 'I' (by decide)) this

theorem second_not_letter {t : List Char}
    (hsecond : ∀ x ∈ t, isDigitCh x = true ∨ x = '.')
    (d : Char) (hd : 57 < d.toNat) : ¬(t.head? = some d) := by
  intro h
  have hmem : d ∈ t := List.mem_of_mem_head? h
  rcases hsecond d hmem with h4 | h4
  · have := isDigitCh_bounds h4
    omega
  · rw [h4] at hd
    exact absurd hd (by decide)

theorem jsNumber_renderQ {q : ℚ} (hd : DecDen q) :
    jsNumber ⟨renderQ q⟩ = some (.finite q) ∧
    (∀ c ∈ renderQ q, isRenderCh c = true) ∧ renderQ q ≠ [] := by
  obtain ⟨j, hdvd⟩ := hd
  by_cases hneg : q < 0
  · have hnn : (0 : ℚ) ≤ -q := by linarith
    have hden : (-q).den = q.den := Rat.neg_den q
    obtain ⟨hparse, hne, hchars, c, t, hct, hcdig⟩ :=
      renderNonneg_spec hnn (j := j) (by rw [hden]; exact hdvd)
    have hrq : renderQ q = '-' :: renderNonneg (-q) := by
      unfold renderQ
      rw [if_pos hneg]
    have hchars' : ∀ x ∈ renderQ q, isRenderCh x = true := by
      intro x hx
      rw [hrq] at hx
      rcases List.mem_cons.mp hx with h | h
      · rw [h]; decide
      · rcases hchars x h with h4 | h4
        · unfold isRenderCh
          simp [h4]
        · rw [h4]; decide
    refine ⟨?_, hchars', by rw [hrq]; simp⟩
    have htoList : (⟨renderQ q⟩ : String).toList = renderQ q := rfl
    have htrim : trimList (renderQ q) = renderQ q :=
      trimList_eq_self _ (fun x hx => isRenderCh_not_ws (hchars' x hx))
    unfold jsNumber
    rw [htoList, htrim, hrq]
    obtain ⟨hi1, hi2, hi3⟩ :=
      ne_infinity_lists (c := '-') (t := renderNonneg (-q)) (Or.inr rfl)
        (fun _ => ⟨c, t, hct, hcdig⟩)
    rw [if_neg (by simp), if_neg (by
        simp only [Bool.or_eq_true, decide_eq_true_eq]
        rintro (h | h)
        · exact hi1 h
        · exact hi2 h), if_neg hi3]
    have hhead : ¬((('-' : Char) :: renderNonneg (-q)).head? = some '0') := by simp
    rw [if_neg (fun hc => hhead hc.1), if_neg (fun hc => hhead hc.1),
      if_neg (fun hc => hhead hc.1)]
    unfold parseDecCore
    rw [if_neg (by simp), if_pos (by simp)]
    show (parseDecSigned (-1) (renderNonneg (-q))).map JSNum.finite = _
    unfold parseDecSigned
    rw [hparse]
    dsimp only
    rw [show parseDecTail (-1) (-q) [] = some (applySign (-1) (-q)) from rfl,
      applySign_neg_one, neg_neg]
    rfl
  · have hnn : (0 : ℚ) ≤ q := by linarith
    obtain ⟨hparse, hne, hchars, c, t, hct, hcdig⟩ :=
      renderNonneg_spec hnn (j := j) hdvd
    have hrq : renderQ q = renderNonneg q := by
      unfold renderQ
      rw [if_neg hneg]
    have hchars' : ∀ x ∈ renderQ q, isRenderCh x = true := by
      intro x hx
      rw [hrq] at hx
      rcases hchars x hx with h4 | h4
      · unfold isRenderCh
        simp [h4]
      · rw [h4]; decide
    refine ⟨?_, hchars', by rw [hrq]; exact hne⟩
    have htoList : (⟨renderQ q⟩ : String).toList = renderQ q := rfl
    have htrim : trimList (renderQ q) = renderQ q :=
      trimList_eq_self _ (fun x hx => isRenderCh_not_ws (hchars' x hx))
    unfold jsNumber
    rw [htoList, htrim, hrq, hct]
    obtain ⟨hi1, hi2, hi3⟩ :=
      ne_infinity_lists (c := c) (t := t) (Or.inl hcdig)
        (fun hcm => absurd hcm (isDigitCh_ne hcdig '-' (by decide)))
    rw [if_neg (by simp), if_neg (by
        simp only [Bool.or_eq_true, decide_eq_true_eq]
        rintro (h | h)
        · exact hi1 h
        · exact hi2 h), if_neg hi3]
    have hsecond : ∀ x ∈ t, isDigitCh x = true ∨ x = '.' := by
      intro x hx
      exact hchars x (by rw [hct]; exact List.mem_cons_of_mem c hx)
    have hrad : ∀ d : Char, 57 < d.toNat → ¬((c :: t).tail.head? = some d) := by
      intro d hd
      exact second_not_letter hsecond d hd
    rw [if_neg (by
        rintro ⟨h1, h2 | h2⟩
        · exact hrad 'x' (by decide) h2
        · exact hrad 'X' (by decide) h2),
      if_neg (by
        rintro ⟨h1, h2 | h2⟩
        · exact hrad 'o' (by decide) h2
        · exact hrad 'O' (by decide) h2),
      if_neg (by
        rintro ⟨h1, h2 | h2⟩
        · exact hrad 'b' (by decide) h2
        · exact hrad 'B' (by decide) h2)]
    unfold parseDecCore
    rw [if_neg (by
        simp only [List.head?_cons, Option.some.injEq]
        exact isDigitCh_ne hcdig '+' (by decide)),
      if_neg (by
        simp only [List.head?_cons, Option.some.injEq]
        exact isDigitCh_ne hcdig '-' (by decide))]
    show (parseDecSigned 1 (c :: t)).map JSNum.finite = _
    unfold parseDecSigned
    rw [← hct, hparse]
    dsimp only
    rw [show parseDecTail 1 q [] = some (applySign 1 q) from rfl, applySign_one]
    rfl

theorem inferCell_num {v : String} {n : JSNum} (h : inferCell v = .num n) :
    jsNumber v = some n := by
  unfold inferCell inferBoolStr at h
  by_cases h1 : v = "" ∨ jsToLower v = "null" ∨ jsToLower v = "nan"
  · simp [h1] at h
  · simp only [h1, if_false] at h
    rcases hn : jsNumber v with _ | n' <;> rw [hn] at h
    · by_cases h2 : jsToLower v = "true"
      · simp [h2] at h
      · by_cases h3 : jsToLower v = "false"
        · simp [h2, h3] at h
        · simp only [h2, h3, if_false] at h
          cases h
    · by_cases ht : jsTrim v = ""
      · simp only [ht, ne_eq, not_true_eq_false, if_false] at h
        by_cases h2 : jsToLower v = "true"
        · simp [h2] at h
        · by_cases h3 : jsToLower v = "false"
          · simp [h2, h3] at h
          · simp only [h2, h3, if_false] at h
            cases h
      · simp only [ht, ne_eq, not_false_eq_true, if_true] at h
        injection h with h1'
        rw [h1']

theorem isRenderCh_toNat_le {c : Char} (h : isRenderCh c = true) : c.toNat ≤ 57 := by
  unfold isRenderCh at h
  simp only [Bool.or_eq_true, decide_eq_true_eq] at h
  rcases h with (h | h) | h
  · exact (isDigitCh_bounds h).2
  · rw [h]; decide
  · rw [h]; decide

theorem jsToLower_render_ne {l : List Char} (hchars : ∀ c ∈ l, isRenderCh c = true)
    {w : String} {c2 : Char} (hw : w.toList.head? = some c2) (hc2 : 96 < c2.toNat) :
    jsToLower ⟨l⟩ ≠ w := by
  intro he
  have hdata : l.map Char.toLower = w.toList := by
    have := congrArg String.data he
    simpa [jsToLower] using this
  cases l with
  | nil =>
    rw [← hdata] at hw
    simp at hw
  | cons c t =>
    have hcr := hchars c (List.mem_cons_self _ _)
    have hlow : Char.toLower c = c := (isRenderCh_facts hcr).2.2
    have hhd : Char.toLower c = c2 := by
      rw [← hdata] at hw
      simpa using hw
    have := isRenderCh_toNat_le hcr
    rw [hlow] at hhd
    rw [hhd] at this
    omega

/-- A parse-produced field value re-classifies to the same cell after
stringification, and its string form is trimmed, quote-free and
newline-free. -/
theorem cell_roundtrip {v : String} (htrim : jsTrim v = v)
    (hquote : ∀ c ∈ v.toList, c ≠ '"') (hnl : ∀ c ∈ v.toList, c ≠ '\n') :
    inferCell (coalesceString (.cell (inferCell v))) = inferCell v ∧
    jsTrim (coalesceString (.cell (inferCell v))) = coalesceString (.cell (inferCell v)) ∧
    (∀ c ∈ (coalesceString (.cell (inferCell v))).toList, c ≠ '"' ∧ c ≠ '\n') := by
  rcases hcell : inferCell v with _ | n | b | s
  · exact ⟨by decide, by decide, by decide⟩
  · have hjs := inferCell_num hcell
    rcases n with q | _ | _
    · have hdd : DecDen q := jsNumber_finite_decDen hjs
      obtain ⟨hj, hchars, hne⟩ := jsNumber_renderQ hdd
      show inferCell ⟨renderQ q⟩ = .num (.finite q) ∧
        jsTrim ⟨renderQ q⟩ = ⟨renderQ q⟩ ∧
        (∀ c ∈ (⟨renderQ q⟩ : String).toList, c ≠ '"' ∧ c ≠ '\n')
      have htr : trimList (renderQ q) = renderQ q :=
        trimList_eq_self _ (fun x hx => isRenderCh_not_ws (hchars x hx))
      have hne' : (⟨renderQ q⟩ : String) ≠ "" := by
        intro hh
        apply hne
        have := congrArg String.data hh
        simpa using this
      have hjt : jsTrim ⟨renderQ q⟩ = ⟨renderQ q⟩ := stringExt htr
      refine ⟨?_, hjt, ?_⟩
      · unfold inferCell
        rw [if_neg (by
            rintro (h | h | h)
            · exact hne' h
            · exact jsToLower_render_ne hchars (w := "null") rfl (by decide) h
            · exact jsToLower_render_ne hchars (w := "nan") rfl (by decide) h),
          hj]
        dsimp only
        rw [if_pos (by
            show jsTrim ⟨renderQ q⟩ ≠ ""
            rw [hjt]
            exact hne')]
      · intro c hc
        exact ⟨(isRenderCh_facts (hchars c hc)).1, (isRenderCh_facts (hchars c hc)).2.1⟩
    · exact ⟨by decide, by decide, by decide⟩
    · exact ⟨by decide, by decide, by decide⟩
  · cases b
    · exact ⟨by decide, by decide, by decide⟩
    · exact ⟨by decide, by decide, by decide⟩
  · obtain ⟨hsv, hnotnull, hnt, hnf, hnum⟩ := inferCell_str hcell
    subst hsv
    have hne : s ≠ "" := fun h => hnotnull (Or.inl h)
    have htne : jsTrim s ≠ "" := by rw [htrim]; exact hne
    have hnn : jsNumber s = none := by
      rcases hnum with h | h
      · exact h
      · exact absurd h htne
    refine ⟨?_, htrim, fun c hc => ⟨hquote c hc, hnl c hc⟩⟩
    show inferCell s = .str s
    unfold inferCell
    rw [if_neg hnotnull, hnn]
    unfold inferBoolStr
    rw [if_neg hnt, if_neg hnf]

/-! ### C1: reassembling the tokenizer on exported lines -/

theorem parseLineAux_quote (l : List Char) (b : Bool) (entry : List Char) :
    parseLineAux ('"' :: l) b entry = parseLineAux l (!b) entry := by
  simp [parseLineAux]

theorem parseLineAux_comma (l : List Char) (entry : List Char) :
    parseLineAux (',' :: l) false entry = jsTrim ⟨entry⟩ :: parseLineAux l false [] := by
  simp [parseLineAux]

/-- Inside quotes, a quote-free block of characters is appended to the entry
buffer verbatim. -/
theorem parseLineAux_content (f : List Char) (hf : ∀ c ∈ f, c ≠ '"') :
    ∀ (rest entry : List Char),
      parseLineAux (f ++ rest) true entry = parseLineAux rest true (entry ++ f) := by
  induction f with
  | nil => intro rest entry; simp
  | cons c t ih =>
    intro rest entry
    have hc : c ≠ '"' := hf c (List.mem_cons_self _ _)
    simp only [List.cons_append, parseLineAux, List.append_eq]
    rw [if_neg hc, if_neg (by simp)]
    rw [ih (fun x hx => hf x (List.mem_cons_of_mem _ hx)) rest (entry ++ [c])]
    rw [List.append_assoc, List.singleton_append]

/-- Outside quotes, a quote-free comma-free block is appended verbatim. -/
theorem parseLineAux_plain (f : List Char) (hf : ∀ c ∈ f, c ≠ '"' ∧ c ≠ ',') :
    ∀ (rest entry : List Char),
      parseLineAux (f ++ rest) false entry = parseLineAux rest false (entry ++ f) := by
  induction f with
  | nil => intro rest entry; simp
  | cons c t ih =>
    intro rest entry
    obtain ⟨hq, hcm⟩ := hf c (List.mem_cons_self _ _)
    simp only [List.cons_append, parseLineAux, List.append_eq]
    rw [if_neg hq, if_neg (by simp [hcm])]
    rw [ih (fun x hx => hf x (List.mem_cons_of_mem _ hx)) rest (entry ++ [c])]
    rw [List.append_assoc, List.singleton_append]

/-- A quoted field: both delimiting quotes are consumed, the content is
appended to the buffer, and the quote state returns to `false`. -/
theorem parseLineAux_wrapped (f : List Char) (hf : ∀ c ∈ f, c ≠ '"')
    (rest entry : List Char) :
    parseLineAux ('"' :: (f ++ '"' :: rest)) false entry =
      parseLineAux rest false (entry ++ f) := by
  rw [parseLineAux_quote]
  simp only [Bool.not_false]
  rw [parseLineAux_content f hf ('"' :: rest) entry, parseLineAux_quote]
  simp only [Bool.not_true]

/-- Tokenizing a comma-join of quote-wrapped quote-free fields recovers the
trimmed fields. -/
theorem parseLineAux_quoted_fields :
    ∀ (fields : List (List Char)), fields ≠ [] →
      (∀ f ∈ fields, ∀ c ∈ f, c ≠ '"') →
      parseLineAux (joinSep [','] (fields.map (fun f => '"' :: (f ++ ['"'])))) false [] =
        fields.map (fun f => jsTrim ⟨f⟩) := by
  intro fields
  induction fields with
  | nil => intro h; exact absurd rfl h
  | cons f fs ih =>
    intro _ hq
    cases fs with
    | nil =>
      simp only [List.map_cons, List.map_nil, joinSep]
      rw [parseLineAux_wrapped f (hq f (List.mem_cons_self _ _)) [] []]
      simp [parseLineAux]
    | cons g gs =>
      simp only [List.map_cons, joinSep, List.cons_append, List.append_assoc,
        List.singleton_append]
      rw [parseLineAux_wrapped f (hq f (List.mem_cons_self _ _)), List.nil_append,
        parseLineAux_comma]
      have := ih (by simp) (fun x hx => hq x (List.mem_cons_of_mem _ hx))
      simp only [List.map_cons] at this ⊢
      simp only [List.nil_append]
      rw [this]

/-- Tokenizing a comma-join of unquoted quote-free comma-free fields recovers
the trimmed fields. -/
theorem parseLineAux_plain_fields :
    ∀ (fields : List (List Char)), fields ≠ [] →
      (∀ f ∈ fields, ∀ c ∈ f, c ≠ '"' ∧ c ≠ ',') →
      parseLineAux (joinSep [','] fields) false [] =
        fields.map (fun f => jsTrim ⟨f⟩) := by
  intro fields
  induction fields with
  | nil => intro h; exact absurd rfl h
  | cons f fs ih =>
    intro _ hq
    cases fs with
    | nil =>
      simp only [List.map_cons, List.map_nil, joinSep]
      conv_lhs => rw [← List.append_nil f]
      rw [parseLineAux_plain f (hq f (List.mem_cons_self _ _)) [] []]
      simp [parseLineAux]
    | cons g gs =>
      simp only [joinSep, List.append_assoc, List.singleton_append]
      rw [parseLineAux_plain f (hq f (List.mem_cons_self _ _)), List.nil_append,
        parseLineAux_comma]
      have := ih (by simp) (fun x hx => hq x (List.mem_cons_of_mem _ hx))
      simp only [List.map_cons] at this ⊢
      rw [this]

/-! ### C1: reassembling the line splitter -/

theorem splitOnNL_no_nl : ∀ {p : List Char}, '\n' ∉ p → splitOnNL p = [p] := by
  intro p
  induction p with
  | nil => intro _; rfl
  | cons c t ih =>
    intro hp
    have hc : c ≠ '\n' := by
      rintro rfl
      exact hp (List.mem_cons_self _ _)
    have ht : '\n' ∉ t := fun h => hp (List.mem_cons_of_mem _ h)
    simp only [splitOnNL]
    rw [if_neg hc, ih ht]

theorem splitOnNL_chunk (r : List Char) :
    ∀ {p : List Char}, '\n' ∉ p → splitOnNL (p ++ '\n' :: r) = p :: splitOnNL r := by
  intro p
  induction p with
  | nil =>
    intro _
    simp [splitOnNL]
  | cons c t ih =>
    intro hp
    have hc : c ≠ '\n' := by
      rintro rfl
      exact hp (List.mem_cons_self _ _)
    have ht : '\n' ∉ t := fun h => hp (List.mem_cons_of_mem _ h)
    simp only [List.cons_append, splitOnNL, List.append_eq]
    rw [if_neg hc, ih ht]

theorem splitOnNL_joinSep :
    ∀ (ps : List (List Char)), ps ≠ [] → (∀ p ∈ ps, '\n' ∉ p) →
      splitOnNL (joinSep ['\n'] ps) = ps := by
  intro ps
  induction ps with
  | nil => intro h; exact absurd rfl h
  | cons p qs ih =>
    intro _ hnl
    cases qs with
    | nil =>
      simp only [joinSep]
      exact splitOnNL_no_nl (hnl p (List.mem_cons_self _ _))
    | cons q rs =>
      simp only [joinSep, List.append_assoc, List.singleton_append]
      rw [splitOnNL_chunk _ (hnl p (List.mem_cons_self _ _)),
        ih (by simp) (fun x hx => hnl x (List.mem_cons_of_mem _ hx))]

theorem joinSep_mem (sep : List Char) :
    ∀ (fs : List (List Char)) (f : List Char), f ∈ fs → ∀ c ∈ f, c ∈ joinSep sep fs := by
  intro fs
  induction fs with
  | nil => intro f hf; cases hf
  | cons x xs ih =>
    intro f hf c hc
    cases xs with
    | nil =>
      simp only [List.mem_singleton] at hf
      subst hf
      simpa [joinSep] using hc
    | cons y ys =>
      simp only [joinSep]
      rcases List.mem_cons.mp hf with rfl | hmem
      · exact List.mem_append_left _ (List.mem_append_left _ hc)
      · exact List.mem_append_right _ (ih f hmem c hc)

theorem joinSep_getLast? (sep : List Char) :
    ∀ (fs : List (List Char)) (l : List Char), fs.getLast? = some l → l ≠ [] →
      (joinSep sep fs).getLast? = l.getLast? := by
  intro fs
  induction fs with
  | nil => intro l h; simp at h
  | cons x xs ih =>
    intro l h hl
    cases xs with
    | nil =>
      simp only [List.getLast?_singleton, Option.some.injEq] at h
      subst h
      rfl
    | cons y ys =>
      have h' : (y :: ys).getLast? = some l := by
        rw [← h, List.getLast?_cons_cons]
      have hJ := ih l h' hl
      have hJs : (joinSep sep (y :: ys)).getLast?.isSome := by
        rw [hJ]
        rcases List.exists_cons_of_ne_nil hl with ⟨a, t, rfl⟩
        rfl
      have hJne : joinSep sep (y :: ys) ≠ [] := List.getLast?_isSome.mp hJs
      simp only [joinSep, List.append_assoc]
      rw [List.getLast?_append_of_ne_nil x
          (show sep ++ joinSep sep (y :: ys) ≠ [] by simp [hJne]),
        List.getLast?_append_of_ne_nil sep hJne]
      exact hJ

theorem dropCR_eq_self {cs : List Char} (h : cs.getLast? ≠ some '\r') :
    dropCR cs = cs := by
  unfold dropCR
  rw [if_neg h]

/-- A property holding on the separator and on every field holds on every
character of the join. -/
theorem joinSep_forall (sep : List Char) (P : Char → Prop) (hsep : ∀ c ∈ sep, P c) :
    ∀ (fs : List (List Char)), (∀ f ∈ fs, ∀ c ∈ f, P c) →
      ∀ c ∈ joinSep sep fs, P c := by
  intro fs
  induction fs with
  | nil => intro _ c hc; cases hc
  | cons x xs ih =>
    intro hf c hc
    cases xs with
    | nil =>
      exact hf x (List.mem_cons_self _ _) c (by simpa [joinSep] using hc)
    | cons y ys =>
      simp only [joinSep, List.mem_append] at hc
      rcases hc with (hc | hc) | hc
      · exact hf x (List.mem_cons_self _ _) c hc
      · exact hsep c hc
      · exact ih (fun f hmem => hf f (List.mem_cons_of_mem _ hmem)) c hc

theorem parseLineAux_ne_nil : ∀ (cs : List Char) (b : Bool) (entry : List Char),
    parseLineAux cs b entry ≠ [] := by
  intro cs
  induction cs with
  | nil => intro b entry; simp [parseLineAux]
  | cons c t ih =>
    intro b entry
    simp only [parseLineAux]
    split
    · exact ih _ _
    · split
      · simp
      · exact ih _ _

theorem parseLine_ne_nil (l : List Char) : parseLine l ≠ [] := by
  unfold parseLine
  intro h
  exact parseLineAux_ne_nil l false [] (List.map_eq_nil_iff.mp h)

theorem flatMap_esc_eq_self :
    ∀ (l : List Char), (∀ c ∈ l, c ≠ '"') →
      (l.flatMap fun c => if c = '"' then ['"', '"'] else [c]) = l := by
  intro l
  induction l with
  | nil => intro _; rfl
  | cons c t ih =>
    intro h
    rw [List.flatMap_cons, if_neg (h c (List.mem_cons_self _ _)),
      ih (fun x hx => h x (List.mem_cons_of_mem _ hx)), List.singleton_append]

/-- Doubling quotes is the identity on quote-free strings. -/
theorem escQuotes_eq_self {s : String} (h : ∀ c ∈ s.toList, c ≠ '"') :
    escQuotes s = s.toList := by
  unfold escQuotes
  exact flatMap_esc_eq_self s.toList h

/-! ### C1: row structure under well-behaved headers -/

theorem jsSet_fresh (k : String) (v : CellValue) :
    ∀ (l : List (String × CellValue)), (∀ p ∈ l, p.1 ≠ k) →
      jsSet l k v = l ++ [(k, v)] := by
  intro l
  induction l with
  | nil => intro _; rfl
  | cons p rest ih =>
    intro h
    rcases p with ⟨k', v'⟩
    simp only [jsSet]
    rw [if_neg (h (k', v') (List.mem_cons_self _ _)),
      ih (fun q hq => h q (List.mem_cons_of_mem _ hq))]
    rfl

/-- Folding fresh header assignments over a row appends the inferred cells in
order and touches neither the id nor the flags. -/
theorem foldl_rowSet_infer :
    ∀ (l : List (String × String)) (r : DataRow),
      (l.map Prod.fst).Nodup → (∀ h ∈ l.map Prod.fst, h ≠ "id") →
      (∀ h ∈ l.map Prod.fst, ∀ p ∈ r.cells, p.1 ≠ h) →
      l.foldl (fun r hv => rowSet r hv.1 (inferCell hv.2)) r =
        ⟨r.id, r.cells ++ l.map (fun hv => (hv.1, inferCell hv.2)), r.flags⟩ := by
  intro l
  induction l with
  | nil =>
    intro r _ _ _
    cases r
    simp
  | cons hv rest ih =>
    intro r hnd hid hfresh
    simp only [List.map_cons, List.nodup_cons] at hnd
    have h1 : hv.1 ≠ "id" := hid hv.1 (by simp)
    have hstep : rowSet r hv.1 (inferCell hv.2) =
        { r with cells := r.cells ++ [(hv.1, inferCell hv.2)] } := by
      unfold rowSet
      rw [if_neg h1, jsSet_fresh _ _ _ (fun p hp => hfresh hv.1 (by simp) p hp)]
    have hid' : ∀ h ∈ rest.map Prod.fst, h ≠ "id" := by
      intro h hh
      exact hid h (by simp only [List.map_cons]; exact List.mem_cons_of_mem _ hh)
    have hfresh' : ∀ h ∈ rest.map Prod.fst,
        ∀ p ∈ ({ r with cells := r.cells ++ [(hv.1, inferCell hv.2)] } : DataRow).cells,
          p.1 ≠ h := by
      intro h hh p hp
      dsimp only at hp
      rcases List.mem_append.mp hp with hp | hp
      · exact hfresh h (by simp only [List.map_cons]; exact List.mem_cons_of_mem _ hh) p hp
      · simp only [List.mem_singleton] at hp
        subst hp
        dsimp only
        rintro rfl
        exact hnd.1 hh
    simp only [List.foldl_cons, hstep]
    rw [ih _ hnd.2 hid' hfresh']
    simp [List.append_assoc]

/-- Under distinct, non-`id` headers and matching lengths, `buildRow` is the
association list of headers with inferred values, flags absent. -/
theorem buildRow_eq (i : ℕ) (headers values : List String)
    (hnd : headers.Nodup) (hid : "id" ∉ headers)
    (hlen : values.length = headers.length) :
    buildRow i headers values =
      ⟨.str ("row-" ++ toString i),
        (headers.zip values).map (fun hv => (hv.1, inferCell hv.2)), none⟩ := by
  unfold buildRow
  have hmap : (headers.zip values).map Prod.fst = headers :=
    List.map_fst_zip _ _ (by omega)
  have hnd' : ((headers.zip values).map Prod.fst).Nodup := by
    rw [hmap]
    exact hnd
  have hid' : ∀ h ∈ (headers.zip values).map Prod.fst, h ≠ "id" := by
    rw [hmap]
    intro h hh he
    rw [he] at hh
    exact hid hh
  rw [foldl_rowSet_infer _ _ hnd' hid' (fun h _ p hp => absurd hp (List.not_mem_nil p))]
  simp

theorem lookup_append_fresh (k : String) :
    ∀ (l1 l2 : List (String × CellValue)), (∀ p ∈ l1, p.1 ≠ k) →
      List.lookup k (l1 ++ l2) = List.lookup k l2 := by
  intro l1
  induction l1 with
  | nil => intro l2 _; rfl
  | cons p rest ih =>
    intro l2 h
    rcases p with ⟨k', v'⟩
    have hne : (k == k') = false :=
      beq_eq_false_iff_ne.mpr (fun he => h (k', v') (List.mem_cons_self _ _) he.symm)
    simp only [List.cons_append, List.lookup, hne]
    exact ih l2 (fun q hq => h q (List.mem_cons_of_mem _ hq))

/-- Reading the built association row back through `row[h]`, one header at a
time, recovers the inferred cells; stated for an arbitrary post-composition
`g` and an already-consumed accumulator `acc`. -/
theorem map_g_rowGet_zip (g : JSVal → List Char) :
    ∀ (hs vs : List String) (idv : CellValue)
      (fl : Option (List (String × String))) (acc : List (String × CellValue)),
      hs.Nodup → "id" ∉ hs → hs.length = vs.length →
      (∀ h ∈ hs, ∀ p ∈ acc, p.1 ≠ h) →
      hs.map (fun h => g (rowGet
          ⟨idv, acc ++ (hs.zip vs).map (fun hv => (hv.1, inferCell hv.2)), fl⟩ h)) =
        vs.map (fun v => g (.cell (inferCell v))) := by
  intro hs
  induction hs with
  | nil =>
    intro vs idv fl acc _ _ hlen _
    rw [List.eq_nil_of_length_eq_zero hlen.symm]
    rfl
  | cons h0 hrest ih =>
    intro vs idv fl acc hnd hid hlen hfresh
    cases vs with
    | nil => simp at hlen
    | cons v0 vrest =>
      simp only [List.nodup_cons] at hnd
      simp only [List.zip_cons_cons, List.map_cons]
      have hrow : (⟨idv, acc ++ (h0, inferCell v0) ::
            (hrest.zip vrest).map (fun hv => (hv.1, inferCell hv.2)), fl⟩ : DataRow) =
          ⟨idv, (acc ++ [(h0, inferCell v0)]) ++
            (hrest.zip vrest).map (fun hv => (hv.1, inferCell hv.2)), fl⟩ := by
        rw [List.append_cons]
      rw [hrow]
      have hhead : rowGet
          ⟨idv, (acc ++ [(h0, inferCell v0)]) ++
            (hrest.zip vrest).map (fun hv => (hv.1, inferCell hv.2)), fl⟩ h0 =
          .cell (inferCell v0) := by
        unfold rowGet
        rw [if_neg (show ¬h0 = "id" by
          intro he
          apply hid
          rw [← he]
          exact List.mem_cons_self _ _)]
        have hl : List.lookup h0 ((acc ++ [(h0, inferCell v0)]) ++
            (hrest.zip vrest).map (fun hv => (hv.1, inferCell hv.2))) =
            some (inferCell v0) := by
          rw [List.append_assoc,
            lookup_append_fresh h0 acc _ (fun p hp => hfresh h0 (List.mem_cons_self _ _) p hp)]
          simp [List.lookup]
        rw [hl]
      rw [hhead]
      have hfresh' : ∀ h ∈ hrest, ∀ p ∈ acc ++ [(h0, inferCell v0)], p.1 ≠ h := by
        intro h hh p hp
        rcases List.mem_append.mp hp with hp | hp
        · exact hfresh h (List.mem_cons_of_mem _ hh) p hp
        · simp only [List.mem_singleton] at hp
          subst hp
          dsimp only
          rintro rfl
          exact hnd.1 hh
      rw [ih vrest idv fl (acc ++ [(h0, inferCell v0)]) hnd.2
        (fun hm => hid (List.mem_cons_of_mem _ hm)) (by simpa using hlen) hfresh']

/-- An exported data line for a well-formed built row is the comma-join of
the quote-wrapped stringifications of the row's values. -/
theorem exportRowLine_buildRow (headers values : List String) (i : ℕ)
    (hnd : headers.Nodup) (hid : "id" ∉ headers)
    (hlen : values.length = headers.length) :
    exportRowLine headers (buildRow i headers values) =
      joinSep [','] (values.map (fun v =>
        '"' :: (escQuotes (coalesceString (.cell (inferCell v))) ++ ['"']))) := by
  unfold exportRowLine
  rw [buildRow_eq i headers values hnd hid hlen]
  have := map_g_rowGet_zip
    (fun jv => '"' :: (escQuotes (coalesceString jv) ++ ['"']))
    headers values (.str ("row-" ++ toString i)) none [] hnd hid
    (by omega) (fun h _ p hp => absurd hp (List.not_mem_nil p))
  simp only [List.nil_append] at this
  rw [show headers.map (exportField
      ⟨.str ("row-" ++ toString i),
        (headers.zip values).map (fun hv => (hv.1, inferCell hv.2)), none⟩) =
      headers.map (fun h => '"' :: (escQuotes (coalesceString (rowGet
        ⟨.str ("row-" ++ toString i),
          (headers.zip values).map (fun hv => (hv.1, inferCell hv.2)), none⟩ h)) ++ ['"']))
    from rfl]
  rw [this]

theorem dropCR_subset {c : Char} {cs : List Char} (h : c ∈ dropCR cs) : c ∈ cs := by
  unfold dropCR at h
  split at h
  · exact List.dropLast_subset _ h
  · exact h

/-- Every blank-filtered line of the input is newline-free. -/
theorem csvLines_no_newline (content : String) :
    ∀ l ∈ csvLines content, '\n' ∉ l := by
  intro l hl hnl
  unfold csvLines at hl
  obtain ⟨l', hl', hld⟩ := List.mem_map.mp (List.mem_of_mem_filter hl)
  rw [← hld] at hnl
  exact splitOnNL_no_newline content.toList l' hl' (dropCR_subset hnl)

/-- Re-tokenizing an exported data line built from trimmed, quote-free,
newline-free values recovers the stringified cells verbatim. -/
theorem parseLine_export_line (vals : List String) (hne : vals ≠ [])
    (hvals : ∀ v ∈ vals, jsTrim v = v ∧ (∀ c ∈ v.toList, c ≠ '"') ∧
      (∀ c ∈ v.toList, c ≠ '\n')) :
    parseLine (joinSep [','] (vals.map (fun v =>
        '"' :: (escQuotes (coalesceString (.cell (inferCell v))) ++ ['"'])))) =
      vals.map (fun v => coalesceString (.cell (inferCell v))) := by
  have hw : ∀ v ∈ vals,
      inferCell (coalesceString (.cell (inferCell v))) = inferCell v ∧
      jsTrim (coalesceString (.cell (inferCell v))) = coalesceString (.cell (inferCell v)) ∧
      (∀ c ∈ (coalesceString (.cell (inferCell v))).toList, c ≠ '"' ∧ c ≠ '\n') :=
    fun v hv => cell_roundtrip (hvals v hv).1 (hvals v hv).2.1 (hvals v hv).2.2
  have hmap : vals.map (fun v =>
        '"' :: (escQuotes (coalesceString (.cell (inferCell v))) ++ ['"'])) =
      (vals.map (fun v => (coalesceString (.cell (inferCell v))).toList)).map
        (fun f => '"' :: (f ++ ['"'])) := by
    rw [List.map_map]
    apply List.map_congr_left
    intro v hv
    dsimp only [Function.comp]
    rw [escQuotes_eq_self (fun c hc => ((hw v hv).2.2 c hc).1)]
  unfold parseLine
  rw [hmap, parseLineAux_quoted_fields _ (by simpa using hne) ?_]
  · rw [List.map_map, List.map_map]
    apply List.map_congr_left
    intro v hv
    dsimp only [Function.comp]
    rw [show (⟨(coalesceString (.cell (inferCell v))).toList⟩ : String) =
        coalesceString (.cell (inferCell v)) from rfl]
    rw [(hw v hv).2.1, stripQuotes_eq_self (fun c hc => ((hw v hv).2.2 c hc).1)]
  · intro f hf
    obtain ⟨v, hv, rfl⟩ := List.mem_map.mp hf
    exact fun c hc => ((hw v hv).2.2 c hc).1

/-- When every line is accepted, `buildRows` yields one association row per
line, in order. -/
theorem buildRows_accept (headers : List String) (hnd : headers.Nodup)
    (hid : "id" ∉ headers) :
    ∀ (ls : List (List Char)) (j : ℕ),
      (∀ l ∈ ls, (parseLine l).length = headers.length) →
      (buildRows headers ls j).map DataRow.cells =
        ls.map (fun l =>
          (headers.zip (parseLine l)).map (fun hv => (hv.1, inferCell hv.2))) := by
  intro ls
  induction ls with
  | nil => intro j _; rfl
  | cons l rest ih =>
    intro j hacc
    unfold buildRows
    rw [if_pos (hacc l (List.mem_cons_self _ _))]
    simp only [List.map_cons]
    rw [ih (j + 1) (fun x hx => hacc x (List.mem_cons_of_mem _ hx)),
      buildRow_eq j headers (parseLine l) hnd hid (hacc l (List.mem_cons_self _ _))]

theorem toList_ne_nil {s : String} (h : s ≠ "") : s.toList ≠ [] :=
  fun hd => h (stringExt hd)

/-! ### C1: per-line facts of the exported text -/

theorem export_line_char_facts (vals : List String)
    (hvals : ∀ v ∈ vals, jsTrim v = v ∧ (∀ c ∈ v.toList, c ≠ '"') ∧
      (∀ c ∈ v.toList, c ≠ '\n')) :
    ∀ f ∈ vals.map (fun v =>
        '"' :: (escQuotes (coalesceString (.cell (inferCell v))) ++ ['"'])),
      ∀ c ∈ f, c = '"' ∨ (c ≠ '"' ∧ c ≠ '\n') := by
  intro f hf c hc
  obtain ⟨v, hv, rfl⟩ := List.mem_map.mp hf
  have hw := cell_roundtrip (hvals v hv).1 (hvals v hv).2.1 (hvals v hv).2.2
  rcases List.mem_cons.mp hc with rfl | hc
  · exact Or.inl rfl
  rcases List.mem_append.mp hc with hc | hc
  · rw [escQuotes_eq_self (fun x hx => (hw.2.2 x hx).1)] at hc
    exact Or.inr (hw.2.2 c hc)
  · simp only [List.mem_singleton] at hc
    exact Or.inl hc

theorem export_line_no_newline (vals : List String)
    (hvals : ∀ v ∈ vals, jsTrim v = v ∧ (∀ c ∈ v.toList, c ≠ '"') ∧
      (∀ c ∈ v.toList, c ≠ '\n')) :
    '\n' ∉ joinSep [','] (vals.map (fun v =>
      '"' :: (escQuotes (coalesceString (.cell (inferCell v))) ++ ['"']))) := by
  intro hmem
  have := joinSep_forall [','] (fun c => c ≠ '\n') (by decide) _
    (fun f hf c hc => by
      rcases export_line_char_facts vals hvals f hf c hc with rfl | h
      · decide
      · exact h.2) '\n' hmem
  exact this rfl

theorem export_line_last (vals : List String) (hne : vals ≠ [])
    (hvals : ∀ v ∈ vals, jsTrim v = v ∧ (∀ c ∈ v.toList, c ≠ '"') ∧
      (∀ c ∈ v.toList, c ≠ '\n')) :
    (joinSep [','] (vals.map (fun v =>
      '"' :: (escQuotes (coalesceString (.cell (inferCell v))) ++ ['"'])))).getLast? =
      some '"' := by
  obtain ⟨vN, hvN⟩ := Option.isSome_iff_exists.mp (List.getLast?_isSome.mpr hne)
  have hfsN : (vals.map (fun v =>
      '"' :: (escQuotes (coalesceString (.cell (inferCell v))) ++ ['"']))).getLast? =
      some ('"' :: (escQuotes (coalesceString (.cell (inferCell vN))) ++ ['"'])) := by
    rw [List.getLast?_map, hvN]
    rfl
  rw [joinSep_getLast? [','] _ _ hfsN (by simp)]
  rw [show ('"' :: (escQuotes (coalesceString (.cell (inferCell vN))) ++ ['"'])) =
      ('"' :: escQuotes (coalesceString (.cell (inferCell vN)))) ++ ['"'] from rfl,
    List.getLast?_concat]

theorem export_line_nonblank (vals : List String) (hne : vals ≠ [])
    (hvals : ∀ v ∈ vals, jsTrim v = v ∧ (∀ c ∈ v.toList, c ≠ '"') ∧
      (∀ c ∈ v.toList, c ≠ '\n')) :
    trimList (joinSep [','] (vals.map (fun v =>
      '"' :: (escQuotes (coalesceString (.cell (inferCell v))) ++ ['"'])))) ≠ [] := by
  obtain ⟨v0, hv0⟩ := List.exists_mem_of_ne_nil vals hne
  refine trimList_ne_nil (c := '"') ?_ (by decide)
  exact joinSep_mem [','] _ _ (List.mem_map_of_mem _ hv0) '"' (List.mem_cons_self _ _)

/-! ### C1: per-line facts of the exported header line -/

theorem header_line_no_newline (headers : List String)
    (hch : ∀ h ∈ headers, ∀ c ∈ h.toList, c ≠ '\n') :
    '\n' ∉ joinSep [','] (headers.map String.toList) := by
  intro hmem
  have := joinSep_forall [','] (fun c => c ≠ '\n') (by decide) _
    (fun f hf c hc => by
      obtain ⟨h, hh, rfl⟩ := List.mem_map.mp hf
      exact hch h hh c hc) '\n' hmem
  exact this rfl

theorem header_line_last (headers : List String) (hne : headers ≠ [])
    (hgood : ∀ h ∈ headers, h ≠ "" ∧ jsTrim h = h) :
    (joinSep [','] (headers.map String.toList)).getLast? ≠ some '\r' := by
  obtain ⟨hN, hhN⟩ := Option.isSome_iff_exists.mp (List.getLast?_isSome.mpr hne)
  have hmemN : hN ∈ headers := List.mem_of_mem_getLast? hhN
  have hfsN : (headers.map String.toList).getLast? = some hN.toList := by
    rw [List.getLast?_map, hhN]
    rfl
  rw [joinSep_getLast? [','] _ _ hfsN (toList_ne_nil (hgood hN hmemN).1)]
  obtain ⟨c, hc⟩ := Option.isSome_iff_exists.mp
    (List.getLast?_isSome.mpr (toList_ne_nil (hgood hN hmemN).1))
  rw [hc]
  have hcw : isWs c = false :=
    trimList_getLast? (congrArg String.data (hgood hN hmemN).2) hc
  intro heq
  rw [Option.some.injEq] at heq
  rw [heq] at hcw
  exact absurd hcw (by decide)

theorem header_line_nonblank (headers : List String) (hne : headers ≠ [])
    (hgood : ∀ h ∈ headers, h ≠ "" ∧ jsTrim h = h) :
    trimList (joinSep [','] (headers.map String.toList)) ≠ [] := by
  obtain ⟨h0, hh0⟩ := List.exists_mem_of_ne_nil headers hne
  obtain ⟨c, hc⟩ := Option.isSome_iff_exists.mp
    (List.getLast?_isSome.mpr (toList_ne_nil (hgood h0 hh0).1))
  have hcw : isWs c = false :=
    trimList_getLast? (congrArg String.data (hgood h0 hh0).2) hc
  refine trimList_ne_nil (c := c) ?_ hcw
  exact joinSep_mem [','] _ _ (List.mem_map_of_mem _ hh0) c (List.mem_of_mem_getLast? hc)

/-- Splitting the exported text on newlines recovers exactly the emitted
lines when each of them is newline-free, has no trailing CR, and is
non-blank. -/
theorem csvLines_joinSep (ps : List (List Char)) (hne : ps ≠ [])
    (hnl : ∀ p ∈ ps, '\n' ∉ p)
    (hcr : ∀ p ∈ ps, p.getLast? ≠ some '\r')
    (hnb : ∀ p ∈ ps, trimList p ≠ []) :
    csvLines ⟨joinSep ['\n'] ps⟩ = ps := by
  unfold csvLines
  rw [show (⟨joinSep ['\n'] ps⟩ : String).toList = joinSep ['\n'] ps from rfl]
  rw [splitOnNL_joinSep ps hne hnl]
  have hmapd : List.map dropCR ps = List.map id ps := by
    apply List.map_congr_left
    intro p hp
    exact dropCR_eq_self (hcr p hp)
  rw [hmapd, List.map_id]
  exact List.filter_eq_self.mpr (fun p hp => decide_eq_true (hnb p hp))

/-- Re-parsing the exported header line recovers the headers. -/
theorem parseLine_header_line (headers : List String) (hne : headers ≠ [])
    (hgood : ∀ h ∈ headers, (∀ c ∈ h.toList, c ≠ '"' ∧ c ≠ ',') ∧ jsTrim h = h) :
    parseLine (joinSep [','] (headers.map String.toList)) = headers := by
  unfold parseLine
  rw [parseLineAux_plain_fields _ (by simpa using hne)
    (fun f hf => by
      obtain ⟨h, hh, rfl⟩ := List.mem_map.mp hf
      exact (hgood h hh).1)]
  rw [List.map_map, List.map_map]
  have hstep : List.map ((stripQuotes ∘ fun f => jsTrim ⟨f⟩) ∘ String.toList) headers =
      List.map id headers := by
    apply List.map_congr_left
    intro h hh
    dsimp only [Function.comp, id]
    rw [show (⟨h.toList⟩ : String) = h from rfl, (hgood h hh).2,
      stripQuotes_eq_self (fun c hc => ((hgood h hh).1 c hc).1)]
  rw [hstep, List.map_id]

/-- Exporting a nonempty list of well-formed association rows and re-parsing
the text recovers the headers, the row count, and every row's cell list. -/
theorem export_reparse (headers : List String) (rows : List DataRow)
    (hhne : headers ≠ []) (hnd : headers.Nodup)
    (hgood : ∀ h ∈ headers, h ≠ "" ∧ h ≠ "id" ∧
      (∀ c ∈ h.toList, c ≠ ',' ∧ c ≠ '"' ∧ c ≠ '\n') ∧ jsTrim h = h)
    (hrows : ∀ r ∈ rows, ∃ j vals, r = buildRow j headers vals ∧
      vals.length = headers.length ∧
      ∀ v ∈ vals, jsTrim v = v ∧ (∀ c ∈ v.toList, c ≠ '"') ∧
        (∀ c ∈ v.toList, c ≠ '\n'))
    (hrne : rows ≠ []) :
    (parseCSV (exportCSV rows)).headers = headers ∧
    (parseCSV (exportCSV rows)).data.length = rows.length ∧
    (parseCSV (exportCSV rows)).data.map DataRow.cells = rows.map DataRow.cells := by
  have hid : "id" ∉ headers := fun hm => (hgood "id" hm).2.1 rfl
  rcases rows with _ | ⟨r0, rs⟩
  · exact absurd rfl hrne
  obtain ⟨j0, vals0, hr0, hlen0, _⟩ := hrows r0 (List.mem_cons_self _ _)
  have hkeys : (jsKeys r0).filter (fun k => k ≠ "id") = headers := by
    unfold jsKeys
    rw [hr0, buildRow_eq j0 headers vals0 hnd hid hlen0]
    dsimp only
    have hfst : ((headers.zip vals0).map
        (fun hv => (hv.1, inferCell hv.2))).map Prod.fst = headers := by
      rw [List.map_map]
      exact List.map_fst_zip headers vals0 (by omega)
    rw [hfst, List.append_nil]
    rw [show (("id" :: headers).filter (fun k => k ≠ "id")) =
        headers.filter (fun k => k ≠ "id") by simp]
    exact List.filter_eq_self.mpr (fun h hm => decide_eq_true (hgood h hm).2.1)
  have hexp : exportCSV (r0 :: rs) =
      ⟨joinSep ['\n'] (joinSep [','] (headers.map String.toList) ::
        (r0 :: rs).map (exportRowLine headers))⟩ := by
    unfold exportCSV
    dsimp only
    rw [hkeys]
  have hlines : ∀ r ∈ r0 :: rs, ∃ vals : List String,
      vals.length = headers.length ∧
      (∀ v ∈ vals, jsTrim v = v ∧ (∀ c ∈ v.toList, c ≠ '"') ∧
        (∀ c ∈ v.toList, c ≠ '\n')) ∧
      exportRowLine headers r = joinSep [','] (vals.map (fun v =>
        '"' :: (escQuotes (coalesceString (.cell (inferCell v))) ++ ['"']))) ∧
      r.cells = (headers.zip vals).map (fun hv => (hv.1, inferCell hv.2)) := by
    intro r hr
    obtain ⟨j, vals, hrj, hlen, hv⟩ := hrows r hr
    exact ⟨vals, hlen, hv,
      by rw [hrj, exportRowLine_buildRow headers vals j hnd hid hlen],
      by rw [hrj, buildRow_eq j headers vals hnd hid hlen]⟩
  have hvalsne : ∀ (vals : List String), vals.length = headers.length → vals ≠ [] := by
    intro vals hlen hv0
    subst hv0
    exact hhne (List.eq_nil_of_length_eq_zero (by simpa using hlen.symm))
  have hcsv : csvLines (exportCSV (r0 :: rs)) =
      joinSep [','] (headers.map String.toList) ::
        (r0 :: rs).map (exportRowLine headers) := by
    rw [hexp]
    apply csvLines_joinSep
    · simp
    · intro p hp
      rcases List.mem_cons.mp hp with rfl | hp
      · exact header_line_no_newline headers
          (fun h hh c hc => ((hgood h hh).2.2.1 c hc).2.2)
      · obtain ⟨r, hr, rfl⟩ := List.mem_map.mp hp
        obtain ⟨vals, hlen, hvfacts, hline, _⟩ := hlines r hr
        rw [hline]
        exact export_line_no_newline vals hvfacts
    · intro p hp
      rcases List.mem_cons.mp hp with rfl | hp
      · exact header_line_last headers hhne
          (fun h hh => ⟨(hgood h hh).1, (hgood h hh).2.2.2⟩)
      · obtain ⟨r, hr, rfl⟩ := List.mem_map.mp hp
        obtain ⟨vals, hlen, hvfacts, hline, _⟩ := hlines r hr
        rw [hline, export_line_last vals (hvalsne vals hlen) hvfacts]
        simp
    · intro p hp
      rcases List.mem_cons.mp hp with rfl | hp
      · exact header_line_nonblank headers hhne
          (fun h hh => ⟨(hgood h hh).1, (hgood h hh).2.2.2⟩)
      · obtain ⟨r, hr, rfl⟩ := List.mem_map.mp hp
        obtain ⟨vals, hlen, hvfacts, hline, _⟩ := hlines r hr
        rw [hline]
        exact export_line_nonblank vals (hvalsne vals hlen) hvfacts
  have hhdr : parseLine (joinSep [','] (headers.map String.toList)) = headers :=
    parseLine_header_line headers hhne
      (fun h hh => ⟨fun c hc => ⟨((hgood h hh).2.2.1 c hc).2.1,
        ((hgood h hh).2.2.1 c hc).1⟩, (hgood h hh).2.2.2⟩)
  have hacc : ∀ L ∈ (r0 :: rs).map (exportRowLine headers),
      (parseLine L).length = headers.length := by
    intro L hL
    obtain ⟨r, hr, rfl⟩ := List.mem_map.mp hL
    obtain ⟨vals, hlen, hvfacts, hline, _⟩ := hlines r hr
    rw [hline, parseLine_export_line vals (hvalsne vals hlen) hvfacts]
    simpa using hlen
  have hcells := buildRows_accept headers hnd hid
    ((r0 :: rs).map (exportRowLine headers)) 1 hacc
  have hrhs : ((r0 :: rs).map (exportRowLine headers)).map (fun L =>
      (headers.zip (parseLine L)).map (fun hv => (hv.1, inferCell hv.2))) =
      (r0 :: rs).map DataRow.cells := by
    rw [List.map_map]
    apply List.map_congr_left
    intro r hr
    dsimp only [Function.comp]
    obtain ⟨vals, hlen, hvfacts, hline, hcellsr⟩ := hlines r hr
    rw [hline, parseLine_export_line vals (hvalsne vals hlen) hvfacts]
    rw [List.zip_map_right, List.map_map, hcellsr]
    apply List.map_congr_left
    intro hv hhv
    dsimp only [Function.comp, Prod.map, id]
    have h2 : hv.2 ∈ vals := (List.of_mem_zip hhv).2
    rw [(cell_roundtrip (hvfacts _ h2).1 (hvfacts _ h2).2.1 (hvfacts _ h2).2.2).1]
  unfold parseCSV
  rw [hcsv]
  dsimp only
  rw [hhdr]
  refine ⟨rfl, ?_, ?_⟩
  · have := congrArg List.length (hcells.trans hrhs)
    simpa using this
  · rw [hcells, hrhs]

/-- **C1** (counterexample): the round-trip property fails as stated.  For
the input whose quoted header field contains a comma, the original parse
yields one data row, but re-parsing the exported text yields none: the
export emits the header `a,b` unquoted, so the re-parsed header count no
longer matches the data lines and every data line is dropped. -/
theorem claim_roundtrip_counterexample :
    (parseCSV "\"a,b\",c\n1,2").data.length = 1 ∧
    (parseCSV (exportCSV (parseCSV "\"a,b\",c\n1,2").data)).data.length = 0 := by
  decide

/-- **C1** (amended): for any dataset produced by `parseCSV` whose headers
are pairwise distinct, nonempty, comma-free and none equal to `id`,
re-parsing `exportCSV` of the data yields the same number of rows and
exactly the same cell lists — every cell that was a number, boolean or null
comes back with the same value and type, strings round-trip as strings, and
the quote-wrapping applied by `exportCSV` is inverted by the tokenizer. -/
theorem claim_roundtrip_amended (content : String)
    (hnd : (parseCSV content).headers.Nodup)
    (hgood : ∀ h ∈ (parseCSV content).headers,
      h ≠ "" ∧ h ≠ "id" ∧ ∀ c ∈ h.toList, c ≠ ',') :
    (parseCSV (exportCSV (parseCSV content).data)).data.length =
      (parseCSV content).data.length ∧
    (parseCSV (exportCSV (parseCSV content).data)).data.map DataRow.cells =
      (parseCSV content).data.map DataRow.cells := by
  rcases hl : csvLines content with _ | ⟨l0, rest⟩
  · have hp : parseCSV content = ⟨[], []⟩ := by
      unfold parseCSV
      rw [hl]
    rw [hp]
    decide
  · have hp : parseCSV content = ⟨parseLine l0, buildRows (parseLine l0) rest 1⟩ := by
      unfold parseCSV
      rw [hl]
    set headers := parseLine l0 with hhdr
    rw [hp] at hnd hgood ⊢
    dsimp only at hnd hgood ⊢
    rcases hdata : buildRows headers rest 1 with _ | ⟨r0, rs⟩
    · decide
    · have hhne : headers ≠ [] := by
        rw [hhdr]
        exact parseLine_ne_nil l0
      have hl0nl : '\n' ∉ l0 :=
        csvLines_no_newline content l0 (by rw [hl]; exact List.mem_cons_self _ _)
      have hgood' : ∀ h ∈ headers, h ≠ "" ∧ h ≠ "id" ∧
          (∀ c ∈ h.toList, c ≠ ',' ∧ c ≠ '"' ∧ c ≠ '\n') ∧ jsTrim h = h := by
        intro h hh
        have hh' : h ∈ parseLine l0 := by
          rw [← hhdr]
          exact hh
        obtain ⟨hq, hmem, htr⟩ := parseLine_mem hh'
        exact ⟨(hgood h hh).1, (hgood h hh).2.1,
          fun c hc => ⟨(hgood h hh).2.2 c hc, hq c hc,
            fun he => hl0nl (he ▸ hmem c hc)⟩, htr⟩
      have hrows : ∀ r ∈ r0 :: rs, ∃ j vals, r = buildRow j headers vals ∧
          vals.length = headers.length ∧
          ∀ v ∈ vals, jsTrim v = v ∧ (∀ c ∈ v.toList, c ≠ '"') ∧
            (∀ c ∈ v.toList, c ≠ '\n') := by
        intro r hr
        rw [← hdata] at hr
        obtain ⟨l, hlmem, j, hrj, hlen⟩ := buildRows_mem hr
        have hlnl : '\n' ∉ l :=
          csvLines_no_newline content l (by rw [hl]; exact List.mem_cons_of_mem _ hlmem)
        refine ⟨j, parseLine l, hrj, hlen, ?_⟩
        intro v hv
        obtain ⟨hq, hmem, htr⟩ := parseLine_mem hv
        exact ⟨htr, hq, fun c hc he => hlnl (he ▸ hmem c hc)⟩
      obtain ⟨hH, hL, hC⟩ :=
        export_reparse headers (r0 :: rs) hhne hnd hgood' hrows (by simp)
      exact ⟨hL, hC⟩

/-- Concrete instance of the amended round trip: the two-column dataset
parsed from `a,b\n1,x` survives export and re-parse with identical cells. -/
theorem claim_roundtrip_amended_witness :
    (parseCSV "a,b\n1,x").headers.Nodup ∧
    (∀ h ∈ (parseCSV "a,b\n1,x").headers,
      h ≠ "" ∧ h ≠ "id" ∧ ∀ c ∈ h.toList, c ≠ ',') ∧
    (parseCSV (exportCSV (parseCSV "a,b\n1,x").data)).data.length =
      (parseCSV "a,b\n1,x").data.length ∧
    (parseCSV (exportCSV (parseCSV "a,b\n1,x").data)).data.map DataRow.cells =
      (parseCSV "a,b\n1,x").data.map DataRow.cells :=
  ⟨by decide, by decide,
    claim_roundtrip_amended "a,b\n1,x" (by decide) (by decide)⟩

end CsvTool
